import Mathlib

/-!
# QuarkDB — verification of the spec's claims against the source

Shallow embedding of the core of the `quark-db` in-memory key-value store:

* `src/core/dataStructures/sortedSet.ts` — the AVL-tree backed `SortedSet`
  (insert, delete, rotations, rebalancing, in-order traversal);
* `src/core/dataStructures/set.ts` — the `Set` built on the hash map
  (union, intersection, difference, subset tests);
* `src/core/dataStructures/hash.ts` (in the unnamed source bundle
  `src/unnamed/part_004`) — the expiring `HashMap` backing the key
  space (set/setex/get/has/delete/ttl with lazy expiry);
* `src/parser/commandParser.ts` — the RESP serialiser and deserialiser;
* `src/core/commands/basic.ts` — the `KEYS` command handler.

JavaScript strings are modelled as `List Char`; machine numbers as `Nat`/`Int`.
-/

/-! ## §1 SortedSet / AVL tree (src/core/dataStructures/sortedSet.ts)

`AVLNode<T> { value; left; right; height }` with `null` children becomes an
inductive tree with an explicit `nil`.  The stored `height` field is kept in
the node, exactly as in the source; `0` is the height contribution of a
`null` child (`node.left ? node.left.height : 0`). -/

inductive AVLTree (α : Type) where
  | nil : AVLTree α
  | node (value : α) (left : AVLTree α) (right : AVLTree α) (height : Nat) : AVLTree α
deriving DecidableEq

namespace AVLTree

variable {α : Type}

/-- Stored height of a possibly-null node: `node ? node.height : 0`. -/
def hgt : AVLTree α → Nat
  | .nil => 0
  | .node _ _ _ h => h

/-- `updateHeight(node)`: recompute the node's stored height from the
children's stored heights (`Math.max(leftHeight, rightHeight) + 1`). -/
def updateHeight : AVLTree α → AVLTree α
  | .nil => .nil
  | .node v l r _ => .node v l r (max (hgt l) (hgt r) + 1)

/-- `getBalanceFactor(node)`: `leftHeight - rightHeight` over stored heights.
The source only invokes it on non-null nodes; the `nil` case is vacuous. -/
def getBalanceFactor : AVLTree α → Int
  | .nil => 0
  | .node _ l r _ => (hgt l : Int) - (hgt r : Int)

/-- `rotateRight(y)`: `x = y.left; T2 = x.right; x.right = y; y.left = T2`,
then `updateHeight(y)` and `updateHeight(x)`.  The source dereferences
`y.left!`; the fallthrough case (never reached under the balance conditions)
returns the tree unchanged. -/
def rotateRight : AVLTree α → AVLTree α
  | .node vy (.node vx a b _) r _ =>
    .node vx a (.node vy b r (max (hgt b) (hgt r) + 1))
      (max (hgt a) (max (hgt b) (hgt r) + 1) + 1)
  | t => t

/-- `rotateLeft(x)`: mirror image of `rotateRight`. -/
def rotateLeft : AVLTree α → AVLTree α
  | .node vx l (.node vy b c _) _ =>
    .node vy (.node vx l b (max (hgt l) (hgt b) + 1)) c
      (max (max (hgt l) (hgt b) + 1) (hgt c) + 1)
  | t => t

/-- `balance(node)`: rotation dispatch on the balance factor, including the
Left-Right and Right-Left double-rotation cases. -/
def balance : AVLTree α → AVLTree α
  | .nil => .nil
  | .node v l r h =>
    let bf : Int := (hgt l : Int) - (hgt r : Int)
    if 1 < bf then
      -- left heavy; Left-Right case first rotates the left child left
      let l' := if getBalanceFactor l < 0 then rotateLeft l else l
      rotateRight (.node v l' r h)
    else if bf < -1 then
      -- right heavy; Right-Left case first rotates the right child right
      let r' := if 0 < getBalanceFactor r then rotateRight r else r
      rotateLeft (.node v l r' h)
    else
      .node v l r h

variable (cmp : α → α → Int)

/-- `insertNode(node, value)`, returning `[newSubtreeRoot, added]`. -/
def insertNode : AVLTree α → α → AVLTree α × Bool
  | .nil, v => (.node v .nil .nil 1, true)
  | .node nv l r h, v =>
    let c := cmp v nv
    if c = 0 then (.node nv l r h, false)
    else if c < 0 then
      let p := insertNode l v
      if p.2 then (balance (updateHeight (.node nv p.1 r h)), true)
      else (.node nv p.1 r h, false)
    else
      let p := insertNode r v
      if p.2 then (balance (updateHeight (.node nv l p.1 h)), true)
      else (.node nv l p.1 h, false)

/-- `findMinNode(node)` on the node `{value := v, left := l}`: walk `left`
pointers to the least value. -/
def findMinVal : α → AVLTree α → α
  | v, .nil => v
  | _, .node lv ll _ _ => findMinVal lv ll

/-- `removeNode(node, value)`, returning `[newSubtreeRoot, removed]`.  The
two-child case copies the in-order successor's value upward and recursively
deletes the successor from the right subtree (discarding that call's flag). -/
def removeNode : AVLTree α → α → AVLTree α × Bool
  | .nil, _ => (.nil, false)
  | .node nv l r h, v =>
    let c := cmp v nv
    if c < 0 then
      let p := removeNode l v
      if p.2 then (balance (updateHeight (.node nv p.1 r h)), true)
      else (.node nv p.1 r h, false)
    else if 0 < c then
      let p := removeNode r v
      if p.2 then (balance (updateHeight (.node nv l p.1 h)), true)
      else (.node nv l p.1 h, false)
    else
      -- found the node to remove: leaf / single-child / two-children cases
      match l with
      | .nil =>
        match r with
        | .nil => (.nil, true)
        | .node rv rl rr rh => (.node rv rl rr rh, true)
      | .node lv ll lr lh =>
        match r with
        | .nil => (.node lv ll lr lh, true)
        | .node rv rl _ _ =>
          let succ := findMinVal rv rl
          let p := removeNode r succ
          (balance (updateHeight (.node succ (.node lv ll lr lh) p.1 h)), true)

/-- `inOrderTraversal(node, result)`: left, value, right. -/
def inOrderTraversal : AVLTree α → List α
  | .nil => []
  | .node v l r _ => inOrderTraversal l ++ v :: inOrderTraversal r

end AVLTree

open AVLTree in
/-- The `SortedSet` container: a root pointer and an element counter. -/
structure SortedSetSt (α : Type) where
  root : AVLTree α
  size : Nat

namespace SortedSetSt

variable {α : Type} (cmp : α → α → Int)

/-- A freshly constructed `SortedSet` (empty root). -/
def empty : SortedSetSt α := ⟨.nil, 0⟩

/-- `SortedSet.add(value)`. -/
def add (s : SortedSetSt α) (v : α) : SortedSetSt α × Bool :=
  let p := AVLTree.insertNode cmp s.root v
  (⟨p.1, if p.2 then s.size + 1 else s.size⟩, p.2)

/-- `SortedSet.delete(value)`. -/
def delete (s : SortedSetSt α) (v : α) : SortedSetSt α × Bool :=
  let p := AVLTree.removeNode cmp s.root v
  (⟨p.1, if p.2 then s.size - 1 else s.size⟩, p.2)

/-- `SortedSet.toArray()` (also the backing of `values()`/`keys()`):
a full in-order traversal. -/
def toArray (s : SortedSetSt α) : List α :=
  AVLTree.inOrderTraversal s.root

end SortedSetSt

/-- The `defaultCompare` comparator of `SortedSet`. -/
def defaultCompare {α : Type} [LT α] [DecidableRel (· < · : α → α → Prop)]
    (a b : α) : Int :=
  if a < b then -1 else if b < a then 1 else 0

/-- One `SortedSet` mutation: `add(v)` or `delete(v)`. -/
inductive SetOp (α : Type) where
  | add (v : α) : SetOp α
  | del (v : α) : SetOp α
deriving DecidableEq

/-- Apply one operation to a `SortedSet`. -/
def applySetOp {α : Type} (cmp : α → α → Int) (s : SortedSetSt α) :
    SetOp α → SortedSetSt α
  | .add v => (s.add cmp v).1
  | .del v => (s.delete cmp v).1

/-- Run a whole sequence of `add`/`delete` operations from a fresh set. -/
def runSetOps {α : Type} (cmp : α → α → Int) (ops : List (SetOp α)) :
    SortedSetSt α :=
  ops.foldl (applySetOp cmp) SortedSetSt.empty

namespace AVLTree

variable {α : Type}

/-- Real (recomputed) height of a tree, ignoring the stored fields. -/
def rheight : AVLTree α → Nat
  | .nil => 0
  | .node _ l r _ => max (rheight l) (rheight r) + 1

/-- Every stored height field equals `1 + max` of the children's heights. -/
def hOKb : AVLTree α → Bool
  | .nil => true
  | .node _ l r h => hOKb l && hOKb r && (h == max (rheight l) (rheight r) + 1)

/-- AVL balance: at every node the children's heights differ by at most 1. -/
def balb : AVLTree α → Bool
  | .nil => true
  | .node _ l r _ =>
    balb l && balb r && decide (rheight r ≤ rheight l + 1)
      && decide (rheight l ≤ rheight r + 1)

/-- A predicate holds at every value stored in the tree. -/
def ForallT (p : α → Prop) : AVLTree α → Prop
  | .nil => True
  | .node v l r _ => p v ∧ ForallT p l ∧ ForallT p r

/-- Binary-search-tree invariant for a linear order. -/
def BSTInv [LT α] : AVLTree α → Prop
  | .nil => True
  | .node v l r _ =>
    ForallT (· < v) l ∧ ForallT (v < ·) r ∧ BSTInv l ∧ BSTInv r

/-- Consecutive elements strictly ascend under the comparator
(`cmp a b < 0` for each adjacent pair). -/
def strictAscB (cmp : α → α → Int) : List α → Bool
  | [] => true
  | [_] => true
  | a :: b :: t => decide (cmp a b < 0) && strictAscB cmp (b :: t)

end AVLTree

/-! ## §2 Expiring Hash Table (src/core/dataStructures/hash.ts, in the
unnamed source bundle src/unnamed/part_004)

`HashMap<K, V>` stores `HashMapItem<V> = { value: V, ex: number | null }`
in a JS `Map`; the backing store is modelled as an association list in
insertion order, matching `Map`'s iteration order.  `none` models
`ex: null`; a stored number is `some e`.  `Date.now()` is the explicit
logical clock `now` in milliseconds. -/

abbrev HMap (κ ν : Type) : Type := List (κ × ν × Option Int)

namespace HMap

variable {κ ν : Type} [DecidableEq κ]

/-- `this.map.get(key)`: the slot as stored (no expiry evaluation, no
mutation).  JS `Map.set` overwrites an existing key in place, so a
reachable store holds at most one slot per key; the model reads the
first. -/
def lookup : HMap κ ν → κ → Option (ν × Option Int)
  | [], _ => none
  | (k', v, e) :: rest, k => if k' = k then some (v, e) else lookup rest k

/-- `set(key, value)`: `this.map.set(key, {value, ex: null})` — inserts
or overwrites in place, expiry cleared to `null`. -/
def set : HMap κ ν → κ → ν → HMap κ ν
  | [], k, v => [(k, v, none)]
  | (k', v', e) :: rest, k, v =>
    if k' = k then (k, v, none) :: rest else (k', v', e) :: set rest k v

/-- `setex(key, value, ex)`: `this.map.set(key, { value, ex })` — the
third argument is stored verbatim as the absolute expiry timestamp
(despite its doc comment calling it "the expiration time in seconds",
no `now + ex*1000` conversion happens anywhere). -/
def setex : HMap κ ν → κ → ν → Int → HMap κ ν
  | [], k, v, ex => [(k, v, some ex)]
  | (k', v', e) :: rest, k, v, ex =>
    if k' = k then (k, v, some ex) :: rest
    else (k', v', e) :: setex rest k v ex

/-- `has(key)`: `this.map.has(key)` — a pure residency check that never
consults the expiry. -/
def has (m : HMap κ ν) (k : κ) : Bool :=
  (lookup m k).isSome

/-- `this.map.delete(key)`: physical removal of the slot, used by
`delete` and by the lazy-expiry sweep inside `get`. -/
def eraseKey : HMap κ ν → κ → HMap κ ν
  | [], _ => []
  | (k', v, e) :: rest, k =>
    if k' = k then rest else (k', v, e) :: eraseKey rest k

/-- `delete(key)`: `Map.delete`'s boolean (true iff the key was resident)
together with the store it leaves. -/
def delete (m : HMap κ ν) (k : κ) : Bool × HMap κ ν :=
  (has m k, eraseKey m k)

/-- `get(key)`: `null` for an absent key; otherwise the guard
`item.ex && item.ex < Date.now()` deletes the slot and returns `null`
exactly when the stored expiry is truthy (non-`null` and non-zero) and
strictly in the past — a falsy `ex` (`null`, or the number `0`) never
expires; otherwise the stored value is returned. -/
def get (m : HMap κ ν) (k : κ) (now : Int) : Option ν × HMap κ ν :=
  match lookup m k with
  | none => (none, m)
  | some (v, none) => (some v, m)
  | some (v, some e) =>
    if e ≠ 0 ∧ e < now then (none, eraseKey m k) else (some v, m)

/-- `ttl(key)`: the source dereferences the slot with no absence check
(`this.map.get(key) as HashMapItem<V>`), so an absent key throws a
`TypeError` — modelled as `none`; a falsy `ex` (`null` or `0`) yields
`-1`; otherwise `item.ex - Date.now()`, the remaining time in
milliseconds (no division by 1000). -/
def ttl (m : HMap κ ν) (k : κ) (now : Int) : Option Int :=
  match lookup m k with
  | none => none
  | some (_, none) => some (-1)
  | some (_, some e) => if e = 0 then some (-1) else some (e - now)

/-- `keys()`: `this.map.keys()` — every resident key in insertion
order; unlike `values()`/`entries()`, it does not sweep or skip expired
slots. -/
def keys (m : HMap κ ν) : List κ :=
  m.map (·.1)

/-- `size()`: `this.map.size` — counts resident slots, including
expired ones not yet lazily swept. -/
def size (m : HMap κ ν) : Nat :=
  m.length

end HMap

/-! ## §3 Set (src/core/dataStructures/set.ts)

`Set<T>` holds a `HashMap<T, boolean>` plus an explicit element counter; set
members are stored with `map.set(value, true)` and therefore never expire. -/

structure JsSet (α : Type) where
  map : HMap α Bool
  _size : Nat

namespace JsSet

variable {α : Type} [DecidableEq α]

/-- The `Set` constructor: fresh backing map, size 0. -/
def empty : JsSet α := ⟨[], 0⟩

/-- `add(value)`: false if already present, else insert and bump the size. -/
def add (s : JsSet α) (v : α) : JsSet α × Bool :=
  if s.map.has v then (s, false)
  else (⟨s.map.set v true, s._size + 1⟩, true)

/-- `delete(value)`: false if absent, else remove and decrement the size. -/
def delete (s : JsSet α) (v : α) : JsSet α × Bool :=
  if ¬s.map.has v then (s, false)
  else (⟨(s.map.delete v).2, s._size - 1⟩, true)

/-- `has(value)`. -/
def has (s : JsSet α) (v : α) : Bool :=
  s.map.has v

/-- The `size` getter. -/
def size (s : JsSet α) : Nat := s._size

/-- `toArray()` / `values()` / iteration: the backing map's keys, in the
backing store's order. -/
def toArray (s : JsSet α) : List α :=
  s.map.keys

/-- `for (const value of xs) set.add(value)` — the iteration pattern used by
`union`. -/
def addAll (s : JsSet α) (l : List α) : JsSet α :=
  l.foldl (fun s v => (s.add v).1) s

/-- `union(other)`: a fresh set receiving every element of `this`, then every
element of `other`. -/
def union (s other : JsSet α) : JsSet α :=
  (empty.addAll s.toArray).addAll other.toArray

/-- `intersection(other)`: iterate the smaller operand, probe the larger. -/
def intersection (s other : JsSet α) : JsSet α :=
  let pair := if s.size < other.size then (s, other) else (other, s)
  pair.1.toArray.foldl
    (fun acc v => if pair.2.has v then (acc.add v).1 else acc) empty

/-- `difference(other)`: elements of `this` absent from `other`. -/
def difference (s other : JsSet α) : JsSet α :=
  s.toArray.foldl
    (fun acc v => if !other.has v then (acc.add v).1 else acc) empty

/-- `isSubsetOf(other)`: size fast-path, then probe every element. -/
def isSubsetOf (s other : JsSet α) : Bool :=
  if s.size > other.size then false
  else s.toArray.all other.has

/-- Well-formedness of a reachable set: no duplicate members, counter in
sync with the backing store, members never expire. -/
def WF (s : JsSet α) : Prop :=
  s.toArray.Nodup ∧ s._size = s.map.length ∧ ∀ e ∈ s.map, e.2.2 = none

end JsSet

/-! ## §4 RESP codec (src/parser/commandParser.ts)

JavaScript strings are `List Char`; `Buffer.byteLength` is the summed UTF-8
size of the characters.  The JS `number` type is split into the `int`
variant (a number whose `String()` form is a plain decimal integer, the case
routed to `serialiseInteger` by the `includes('.')` test) and the `double`
variant carried as its textual form (the case routed to `serialiseDouble`).
An `Error` object is the `err` variant; `undefined` is `undef`. -/

abbrev Str : Type := List Char

/-- `RESP.CRLF`. -/
def CRLF : Str := ['\r', '\n']

inductive JSValue where
  | str (s : Str)
  | int (n : Int)
  | double (s : Str)
  | bool (b : Bool)
  | null
  | undef
  | arr (xs : List JSValue)
  | map (ps : List (JSValue × JSValue))
  | err (msg : Str)

/-- Decimal digit character (explicit table for `0`..`9`). -/
def digitChar : Nat → Char
  | 0 => '0'
  | 1 => '1'
  | 2 => '2'
  | 3 => '3'
  | 4 => '4'
  | 5 => '5'
  | 6 => '6'
  | 7 => '7'
  | 8 => '8'
  | 9 => '9'
  | _ => '?'

/-- Decimal rendering of a natural number (`String(n)` / `n.toString()` for
a non-negative integer); the fuel argument only drives structural
recursion and `n + 1` is always enough. -/
def natToStrAux : Nat → Nat → Str
  | 0, _ => []
  | fuel + 1, n =>
    if n < 10 then [digitChar n]
    else natToStrAux fuel (n / 10) ++ [digitChar (n % 10)]

def natToStr (n : Nat) : Str := natToStrAux (n + 1) n

/-- `String(n)` for an integer-valued JS number in the safe range. -/
def intToStr (n : Int) : Str :=
  if n < 0 then '-' :: natToStr n.natAbs else natToStr n.toNat

/-- UTF-8 size of one character (the model of what `Buffer.byteLength`
adds per code point). -/
def charBytes (c : Char) : Nat :=
  if c.toNat < 0x80 then 1
  else if c.toNat < 0x800 then 2
  else if c.toNat < 0x10000 then 3
  else 4

/-- `Buffer.byteLength(s)`. -/
def byteLength (s : Str) : Nat := (s.map charBytes).sum

/-- `serialiseBulkString`: `$<byteLength>\r\n<data>\r\n`. -/
def serialiseBulkString (s : Str) : Str :=
  '$' :: natToStr (byteLength s) ++ CRLF ++ s ++ CRLF

/-- `serialiseBulkError`: `!<byteLength>\r\n<data>\r\n`. -/
def serialiseBulkError (s : Str) : Str :=
  '!' :: natToStr (byteLength s) ++ CRLF ++ s ++ CRLF

/-- `serialiseSimpleString`: `+<data>\r\n`. -/
def serialiseSimpleString (s : Str) : Str :=
  '+' :: s ++ CRLF

/-- `serialiseError`: a message shorter than 10 characters collapses to the
generic simple error; otherwise a bulk error with the real message (the
source's `error.message || "Unknown error"` fallback is dead there, since
a message of 10+ characters is never the empty string). -/
def serialiseError (msg : Str) : Str :=
  if msg.length < 10 then '-' :: ("Unknown error".toList ++ CRLF)
  else serialiseBulkError msg

/-- `serialiseString`: empty strings become `$0\r\n\r\n`; members of the
`COMMON_RESP` allow-list become simple strings; all others bulk strings.
The allow-list's source file (`src/utils/commonRes.ts`) is not in the
source tree, so it is a parameter here. -/
def serialiseString (commonResp : List Str) (s : Str) : Str :=
  if s.length = 0 then '$' :: '0' :: CRLF ++ CRLF
  else if s ∈ commonResp then serialiseSimpleString s
  else serialiseBulkString s

/-- `serialiseInteger`: `:<text>\r\n`. -/
def serialiseInteger (n : Int) : Str :=
  ':' :: intToStr n ++ CRLF

/-- `serialiseDouble`: `,<text>\r\n` (`toLocaleString("fullwide", ...)`
agrees with the textual form for ordinary magnitudes). -/
def serialiseDouble (s : Str) : Str :=
  ',' :: s ++ CRLF

/-- `serialiseBoolean`: note that the source emits the bare literal
`t`/`f` with NO `#` type tag (`RESP.TRUE + RESP.CRLF`), exactly as its own
unit tests assert. -/
def serialiseBoolean (b : Bool) : Str :=
  (if b then ['t'] else ['f']) ++ CRLF

/-- `serialiseNull`: `_\r\n`. -/
def serialiseNull : Str := '_' :: CRLF

/-- `serialiseNIL`: `~\r\n` for `undefined`. -/
def serialiseNIL : Str := '~' :: CRLF

mutual

/-- `RespSerializer.serialise`: dispatch over the value's runtime kind.
The `Symbol`/unsupported fallback (`serialiseUnsupportedType`) is outside
the modelled value set. -/
def serialise (commonResp : List Str) : JSValue → Str
  | .str s => serialiseString commonResp s
  | .int n => serialiseInteger n
  | .double s => serialiseDouble s
  | .bool b => serialiseBoolean b
  | .undef => serialiseNIL
  | .null => serialiseNull
  | .arr xs =>
    if xs.length = 0 then '*' :: '0' :: CRLF
    else '*' :: natToStr xs.length ++ CRLF ++ serialiseSeq commonResp xs ++ CRLF
  | .map ps =>
    '%' :: natToStr ps.length ++ CRLF ++ serialisePairs commonResp ps ++ CRLF
  | .err msg => serialiseError msg

/-- `data.map((item) => this.serialise(item)).join("")`. -/
def serialiseSeq (commonResp : List Str) : List JSValue → Str
  | [] => []
  | v :: vs => serialise commonResp v ++ serialiseSeq commonResp vs

/-- `entries.map(([key, value]) => serialise(key) + serialise(value)).join("")`. -/
def serialisePairs (commonResp : List Str) : List (JSValue × JSValue) → Str
  | [] => []
  | (k, v) :: ps =>
    serialise commonResp k ++ serialise commonResp v ++
      serialisePairs commonResp ps

end

/-- Maximal decimal-digit prefix value, `none` when there is none
(`parseInt` yields `NaN` then). -/
def parseDigitsVal (s : Str) : Option Nat :=
  let ds := s.takeWhile (·.isDigit)
  if ds.isEmpty then none
  else some (ds.foldl (fun a c => a * 10 + (c.toNat - 48)) 0)

/-- `parseInt(s, 10)`: skip leading whitespace, optional sign, maximal
digit prefix; trailing garbage is ignored; `none` models `NaN`. -/
def jsParseInt (s : Str) : Option Int :=
  let s1 := s.dropWhile (·.isWhitespace)
  match s1 with
  | '-' :: rest => (parseDigitsVal rest).map (fun n => -(Int.ofNat n))
  | '+' :: rest => (parseDigitsVal rest).map Int.ofNat
  | _ => (parseDigitsVal s1).map Int.ofNat

/-- Does `parseFloat(s)` yield a number (not `NaN`)?  True when the trimmed
string starts with an optional sign and then a digit, or a `.` followed by
a digit (special literals such as `Infinity` are outside the model). -/
def jsFloatOk (s : Str) : Bool :=
  let s1 := s.dropWhile (·.isWhitespace)
  let s2 := match s1 with
    | '-' :: r => r
    | '+' :: r => r
    | r => r
  match s2 with
  | '.' :: c :: _ => c.isDigit
  | c :: _ => c.isDigit
  | [] => false

mutual

/-- Structural value equality, standing in for JS SameValueZero on the
modelled value set (used as `Map` key equality). -/
def beqJSValue : JSValue → JSValue → Bool
  | .str a, .str b => a == b
  | .int a, .int b => a == b
  | .double a, .double b => a == b
  | .bool a, .bool b => a == b
  | .null, .null => true
  | .undef, .undef => true
  | .arr a, .arr b => beqJSList a b
  | .map a, .map b => beqJSPairs a b
  | .err a, .err b => a == b
  | _, _ => false

def beqJSList : List JSValue → List JSValue → Bool
  | [], [] => true
  | a :: as2, b :: bs2 => beqJSValue a b && beqJSList as2 bs2
  | _, _ => false

def beqJSPairs : List (JSValue × JSValue) → List (JSValue × JSValue) → Bool
  | [], [] => true
  | (k1, v1) :: ps1, (k2, v2) :: ps2 =>
    beqJSValue k1 k2 && beqJSValue v1 v2 && beqJSPairs ps1 ps2
  | _, _ => false

end

/-- JS `Map.prototype.set`: an existing (SameValueZero-equal) key keeps its
position and original key object, only the value is replaced; a new key is
appended. -/
def jsMapSet (m : List (JSValue × JSValue)) (k v : JSValue) :
    List (JSValue × JSValue) :=
  match m with
  | [] => [(k, v)]
  | (k', v') :: rest =>
    if beqJSValue k' k then (k', v) :: rest
    else (k', v') :: jsMapSet rest k v

/-- The parse loop of `parseArray`: run the element parser `count` times. -/
def parseManyF (pn : List Str → Except Str (JSValue × List Str)) :
    Nat → List Str → Except Str (List JSValue × List Str)
  | 0, ts => .ok ([], ts)
  | k + 1, ts =>
    match pn ts with
    | .error e => .error e
    | .ok (v, ts1) =>
      match parseManyF pn k ts1 with
      | .error e => .error e
      | .ok (vs, ts2) => .ok (v :: vs, ts2)

/-- The parse loop of `parseMap`: parse key and value `count` times,
inserting with `Map.set`. -/
def parsePairsF (pn : List Str → Except Str (JSValue × List Str)) :
    Nat → List (JSValue × JSValue) → List Str →
      Except Str (List (JSValue × JSValue) × List Str)
  | 0, acc, ts => .ok (acc, ts)
  | n + 1, acc, ts =>
    match pn ts with
    | .error e => .error e
    | .ok (k, ts1) =>
      match pn ts1 with
      | .error e => .error e
      | .ok (v, ts2) => parsePairsF pn n (jsMapSet acc k v) ts2

/-- `Parser.parseNext` over the frame stack.  The source reverses the
frame array and pops from the back; popping the reversed array's back is
consuming the original order front-first, as done here.  The fuel argument
only drives structural recursion through nested containers; the
`deserialiser` below always supplies enough. -/
def parseNextF : Nat → List Str → Except Str (JSValue × List Str)
  | _, [] => .ok (.null, [])
  | 0, _ :: _ => .error "parser fuel exhausted".toList
  | fuel + 1, t :: rest =>
    match t with
    | [] => .error "Unexpected empty buffer".toList
    | tc :: payload =>
      if tc = '+' then .ok (.str payload, rest)
      else if tc = ':' then
        match jsParseInt payload with
        | none => .error ("Invalid integer format: ".toList ++ payload)
        | some n => .ok (.int n, rest)
      else if tc = '-' then
        .error ("Redis error response: ".toList ++ payload)
      else if tc = '$' then
        match jsParseInt payload with
        | some len =>
          if len = -1 then .ok (.null, rest)
          else
            match rest with
            | [] => .error "Unexpected end of input for Bulk String".toList
            | b :: rest2 =>
              if (b.length : Int) = len then .ok (.str b, rest2)
              else .error "Bulk String length mismatch".toList
        | none =>
          -- NaN length: the `=== -1` test fails, the length comparison throws
          match rest with
          | [] => .error "Unexpected end of input for Bulk String".toList
          | _ :: _ => .error "Bulk String length mismatch".toList
      else if tc = '*' then
        match jsParseInt payload with
        | none => .ok (.arr [], rest)   -- NaN count: the loop never runs
        | some len =>
          if len = -1 then .ok (.null, rest)
          else
            match parseManyF (parseNextF fuel) len.toNat rest with
            | .error e => .error e
            | .ok (vs, ts2) => .ok (.arr vs, ts2)
      else if tc = '#' then
        if payload = ['t'] then .ok (.bool true, rest)
        else if payload = ['f'] then .ok (.bool false, rest)
        else .error "Invalid type of boolean encoding".toList
      else if tc = ',' then
        -- the parsed float is carried as its payload text; parseFloat's
        -- IEEE canonicalisation is not modelled
        if jsFloatOk payload then .ok (.double payload, rest)
        else .error ("Invalid double format: ".toList ++ payload)
      else if tc = '_' then .ok (.null, rest)
      else if tc = '!' then
        match jsParseInt payload with
        | some len =>
          if len = -1 then .ok (.null, rest)
          else
            match rest with
            | [] => .error "Unexpected end of input for Bulk Error".toList
            | b :: _ =>
              if (b.length : Int) = len then .error b
              else .error "Bulk Error length mismatch".toList
        | none =>
          match rest with
          | [] => .error "Unexpected end of input for Bulk Error".toList
          | _ :: _ => .error "Bulk Error length mismatch".toList
      else if tc = '%' then
        match jsParseInt payload with
        | none => .ok (.map [], rest)   -- NaN count: `NaN < 0` is false, loop never runs
        | some len =>
          if len < 0 then .error "Map length must be > 0".toList
          else
            match parsePairsF (parseNextF fuel) len.toNat [] rest with
            | .error e => .error e
            | .ok (ps, ts2) => .ok (.map ps, ts2)
      else .error ("Unknown RESP type: ".toList ++ [tc])

/-- `bufferStream.split(RESP.CRLF)`: split on each (leftmost,
non-overlapping) occurrence of the two-character separator. -/
def splitCRLF : Str → List Str
  | [] => [[]]
  | [c] => [[c]]
  | c :: d :: rest =>
    if c = '\r' && d = '\n' then [] :: splitCRLF rest
    else
      match splitCRLF (d :: rest) with
      | s :: ss => (c :: s) :: ss
      | [] => [[c]]

/-- `Parser.deserialiser`: split on CRLF, drop falsy (empty) segments,
parse the first value. -/
def deserialiser (bufferStream : Str) : Except Str JSValue :=
  let bufferArray := (splitCRLF bufferStream).filter (· ≠ [])
  match parseNextF (bufferArray.length + 1) bufferArray with
  | .error e => .error e
  | .ok (v, _) => .ok v

/-! ## §5 the KEYS command (src/core/commands/basic.ts) -/

/-- Matcher for the translated pattern (`pattern.replace(/\x2a/g, '.x2a')`
turns each `*` into the regex wildcard `.*`; a literal `.` in the pattern
is the regex any-character atom), anchored at the start of `s`.  The fuel
argument only drives structural recursion; `p.length + s.length + 1` is
always enough. -/
def globMatchHereF : Nat → Str → Str → Bool
  | 0, _, _ => false
  | fuel + 1, p, s =>
    match p with
    | [] => true
    | '*' :: ps =>
      globMatchHereF fuel ps s ||
        (match s with
         | [] => false
         | _ :: s2 => globMatchHereF fuel ('*' :: ps) s2)
    | '.' :: ps =>
      (match s with
       | [] => false
       | _ :: s2 => globMatchHereF fuel ps s2)
    | c :: ps =>
      (match s with
       | [] => false
       | d :: s2 => c = d && globMatchHereF fuel ps s2)

/-- `new RegExp(translated).test(s)`: unanchored search — try a match at
every start position. -/
def regexTest (p : Str) : Str → Bool
  | [] => globMatchHereF (p.length + 1) p []
  | c :: s2 =>
    globMatchHereF (p.length + (c :: s2).length + 1) p (c :: s2) ||
      regexTest p s2

/-- The `KEYS` handler's reply is heterogeneous across its branches: the
raw key list when the pattern is empty, an array whose elements are key
*arrays* otherwise. -/
inductive KeysReply where
  | raw (ks : List Str)
  | filtered (kss : List (List Str))
deriving DecidableEq

/-- JS `Array.prototype.toString` = `join(",")`, the coercion applied when
a key array is handed to `RegExp.test`. -/
def joinComma : List Str → Str
  | [] => []
  | [k] => k
  | k :: ks => k ++ ',' :: joinComma ks

/-- `commands.KEYS`, for a keyspace whose key names are `keys`:
`pattern.length > 0` selects `[keys].filter((key) => reg.test(key))` —
filtering the one-element array `[keys]`, with the whole key array
coerced to its comma-joined string inside `test`. -/
def KEYS (keys : List Str) (pattern : Str) : KeysReply :=
  if 0 < pattern.length then
    .filtered (([keys]).filter (fun key => regexTest pattern (joinComma key)))
  else .raw keys

/-- The specification's contract for `KEYS`: exactly the key names whose
names match the translated pattern. -/
def specKEYS (keys : List Str) (pattern : Str) : List Str :=
  keys.filter (fun k => regexTest pattern k)

/-! ### The C2 round-trip apparatus: frame lines and the `good` value class -/

/-- No CRLF pair occurs inside the string. -/
def crlfFreeB : Str → Bool
  | [] => true
  | [_] => true
  | c :: d :: rest => !(c = '\r' && d = '\n') && crlfFreeB (d :: rest)

/-- Concatenate CRLF-terminated lines. -/
def joinCRLF : List Str → Str
  | [] => []
  | l :: ls => l ++ CRLF ++ joinCRLF ls

mutual

/-- The serialised form of a value, as the list of CRLF-terminated lines it
is made of (including the empty trailing lines of aggregates and of the
empty bulk string). -/
def respLines (commonResp : List Str) : JSValue → List Str
  | .str s =>
    if s.length = 0 then [['$', '0'], []]
    else if s ∈ commonResp then ['+' :: s]
    else ['$' :: natToStr (byteLength s), s]
  | .int n => [':' :: intToStr n]
  | .double s => [',' :: s]
  | .bool b => [if b then ['t'] else ['f']]
  | .null => [['_']]
  | .undef => [['~']]
  | .err m =>
    if m.length < 10 then ['-' :: "Unknown error".toList]
    else ['!' :: natToStr (byteLength m), m]
  | .arr xs =>
    if xs.length = 0 then [['*', '0']]
    else ('*' :: natToStr xs.length) :: (respLinesSeq commonResp xs ++ [[]])
  | .map ps =>
    ('%' :: natToStr ps.length) :: (respLinesPairs commonResp ps ++ [[]])

def respLinesSeq (commonResp : List Str) : List JSValue → List Str
  | [] => []
  | v :: vs => respLines commonResp v ++ respLinesSeq commonResp vs

def respLinesPairs (commonResp : List Str) :
    List (JSValue × JSValue) → List Str
  | [] => []
  | (k, v) :: ps =>
    respLines commonResp k ++ respLines commonResp v ++
      respLinesPairs commonResp ps

end

/-- The non-empty frame lines of a value: what the deserialiser's
split-and-filter pass leaves of its serialised form. -/
def respToks (commonResp : List Str) (v : JSValue) : List Str :=
  (respLines commonResp v).filter (· ≠ [])

def respToksSeq (commonResp : List Str) (xs : List JSValue) : List Str :=
  (respLinesSeq commonResp xs).filter (· ≠ [])

def respToksPairs (commonResp : List Str) (ps : List (JSValue × JSValue)) :
    List Str :=
  (respLinesPairs commonResp ps).filter (· ≠ [])

/-- `k` does not occur among the keys of the pair list. -/
def keyNotIn (k : JSValue) : List (JSValue × JSValue) → Bool
  | [] => true
  | (k', _) :: rest => !beqJSValue k' k && keyNotIn k rest

mutual

/-- The value class for which the encode/decode round trip holds: non-empty
CRLF-free ASCII strings, integers, `null`, and arrays and maps (with
distinct keys) of such values.  Booleans (serialised without their type
tag), the empty string (whose `$0` frame the CRLF filter destroys),
doubles, `undefined` and errors are excluded. -/
def good : JSValue → Bool
  | .str s =>
    !s.isEmpty && crlfFreeB s && s.all (fun c => decide (c.toNat < 128))
  | .int _ => true
  | .double _ => false
  | .bool _ => false
  | .null => true
  | .undef => false
  | .err _ => false
  | .arr xs => goodList xs
  | .map ps => goodPairs ps

def goodList : List JSValue → Bool
  | [] => true
  | v :: vs => good v && goodList vs

def goodPairs : List (JSValue × JSValue) → Bool
  | [] => true
  | (k, v) :: ps => good k && good v && keyNotIn k ps && goodPairs ps

end

namespace AVLTree

variable {α : Type}

theorem hOKb_node_iff {v : α} {l r : AVLTree α} {h : Nat} :
    hOKb (.node v l r h) = true ↔
      hOKb l = true ∧ hOKb r = true ∧ h = max (rheight l) (rheight r) + 1 := by
  simp [hOKb, and_assoc]

theorem balb_node_iff {v : α} {l r : AVLTree α} {h : Nat} :
    balb (.node v l r h) = true ↔
      balb l = true ∧ balb r = true ∧ rheight r ≤ rheight l + 1 ∧
        rheight l ≤ rheight r + 1 := by
  simp [balb, and_assoc]

theorem hgt_eq {t : AVLTree α} (h : hOKb t = true) : hgt t = rheight t := by
  cases t with
  | nil => rfl
  | node v l r hh =>
    rw [hOKb_node_iff] at h
    simp [hgt, rheight, h.2.2]

theorem rheight_node {v : α} {l r : AVLTree α} {h : Nat} :
    rheight (.node v l r h) = max (rheight l) (rheight r) + 1 := rfl

theorem hgt_nil : hgt (.nil : AVLTree α) = 0 := rfl

theorem hgt_node {v : α} {l r : AVLTree α} {h : Nat} :
    hgt (.node v l r h) = h := rfl

theorem inorder_updateHeight (t : AVLTree α) :
    inOrderTraversal (updateHeight t) = inOrderTraversal t := by
  cases t <;> rfl

theorem inorder_rotateRight (t : AVLTree α) :
    inOrderTraversal (rotateRight t) = inOrderTraversal t := by
  cases t with
  | nil => rfl
  | node vy l r h =>
    cases l with
    | nil => rfl
    | node vx a b h2 => simp [rotateRight, inOrderTraversal]

theorem inorder_rotateLeft (t : AVLTree α) :
    inOrderTraversal (rotateLeft t) = inOrderTraversal t := by
  cases t with
  | nil => rfl
  | node vx l r h =>
    cases r with
    | nil => rfl
    | node vy b c h2 => simp [rotateLeft, inOrderTraversal]

theorem inorder_balance (t : AVLTree α) :
    inOrderTraversal (balance t) = inOrderTraversal t := by
  cases t with
  | nil => rfl
  | node v l r h =>
    simp only [balance]
    split
    · rw [inorder_rotateRight]
      split
      · simp [inOrderTraversal, inorder_rotateLeft]
      · rfl
    · split
      · rw [inorder_rotateLeft]
        split
        · simp [inOrderTraversal, inorder_rotateRight]
        · rfl
      · rfl

end AVLTree

namespace AVLTree

variable {α : Type}

theorem balance_main (v : α) (h0 : Nat) (l r : AVLTree α)
    (hl : hOKb l = true) (hr : hOKb r = true)
    (bl : balb l = true) (br : balb r = true)
    (hd1 : rheight l ≤ rheight r + 2) (hd2 : rheight r ≤ rheight l + 2) :
    hOKb (balance (updateHeight (AVLTree.node v l r h0))) = true ∧
    balb (balance (updateHeight (AVLTree.node v l r h0))) = true ∧
    (rheight (balance (updateHeight (AVLTree.node v l r h0)))
        = max (rheight l) (rheight r) + 1 ∨
      (rheight (balance (updateHeight (AVLTree.node v l r h0)))
          = max (rheight l) (rheight r) ∧
        (rheight l = rheight r + 2 ∨ rheight r = rheight l + 2))) := by
  have Hl := hgt_eq hl
  have Hr := hgt_eq hr
  simp only [updateHeight, balance]
  by_cases hc1 : (1 : Int) < (hgt l : Int) - (hgt r : Int)
  · -- left heavy: rheight l = rheight r + 2
    rw [if_pos hc1]
    have hrr : rheight l = rheight r + 2 := by rw [Hl, Hr] at hc1; omega
    cases l with
    | nil => exfalso; simp [rheight] at hrr
    | node lv ll lr lh =>
      obtain ⟨hll, hlr, hlh⟩ := hOKb_node_iff.mp hl
      obtain ⟨bll, blr, bd1, bd2⟩ := balb_node_iff.mp bl
      have Hll := hgt_eq hll
      have Hlr := hgt_eq hlr
      by_cases hbf : getBalanceFactor (AVLTree.node lv ll lr lh) < 0
      · -- Left-Right case
        rw [if_pos hbf]
        have hlt : rheight lr = rheight ll + 1 := by
          simp only [getBalanceFactor, Hll, Hlr] at hbf
          omega
        cases lr with
        | nil => exfalso; simp [rheight] at hlt
        | node c t1 t2 ch =>
          obtain ⟨ht1, ht2, hch⟩ := hOKb_node_iff.mp hlr
          obtain ⟨bt1, bt2, bd3, bd4⟩ := balb_node_iff.mp blr
          have Ht1 := hgt_eq ht1
          have Ht2 := hgt_eq ht2
          simp only [rheight_node] at hrr hlt hd1 hd2
          simp only [rotateLeft, rotateRight, hOKb_node_iff, balb_node_iff,
            rheight_node, hgt_node, Hll, Hlr, Ht1, Ht2, Hr, hlh, hch, hll, ht1, ht2,
            hOKb, balb, bll, bt1, bt2, br, hl, hr, bl, blr,
            true_and, and_true, Bool.and_eq_true, beq_iff_eq,
            decide_eq_true_eq]
          omega
      · -- Left-Left case
        rw [if_neg hbf]
        have hge : rheight lr ≤ rheight ll := by
          simp only [getBalanceFactor, Hll, Hlr] at hbf
          omega
        simp only [rheight_node] at hrr hd1 hd2
        simp only [rotateRight, hOKb_node_iff, balb_node_iff,
          rheight_node, hgt_node, Hll, Hlr, Hr, hlh, hll, hlr, hr, bll, blr, br,
          true_and, and_true, Bool.and_eq_true, beq_iff_eq,
          decide_eq_true_eq]
        omega
  · rw [if_neg hc1]
    by_cases hc2 : (hgt l : Int) - (hgt r : Int) < -1
    · -- right heavy: rheight r = rheight l + 2
      rw [if_pos hc2]
      have hrr : rheight r = rheight l + 2 := by rw [Hl, Hr] at hc2; omega
      cases r with
      | nil => exfalso; simp [rheight] at hrr
      | node rv rl rr rh =>
        obtain ⟨hrl, hrr2, hrh⟩ := hOKb_node_iff.mp hr
        obtain ⟨brl, brr, bd1, bd2⟩ := balb_node_iff.mp br
        have Hrl := hgt_eq hrl
        have Hrr := hgt_eq hrr2
        by_cases hbf : 0 < getBalanceFactor (AVLTree.node rv rl rr rh)
        · -- Right-Left case
          rw [if_pos hbf]
          have hlt : rheight rl = rheight rr + 1 := by
            simp only [getBalanceFactor, Hrl, Hrr] at hbf
            omega
          cases rl with
          | nil => exfalso; simp [rheight] at hlt
          | node c t1 t2 ch =>
            obtain ⟨ht1, ht2, hch⟩ := hOKb_node_iff.mp hrl
            obtain ⟨bt1, bt2, bd3, bd4⟩ := balb_node_iff.mp brl
            have Ht1 := hgt_eq ht1
            have Ht2 := hgt_eq ht2
            simp only [rheight_node] at hrr hlt hd1 hd2
            simp only [rotateRight, rotateLeft, hOKb_node_iff, balb_node_iff,
              rheight_node, hgt_node, Hrl, Hrr, Ht1, Ht2, Hl, hrh, hch, hl, ht1, ht2,
              hrr2, bl, bt1, bt2, brr, brl, hr, br,
              true_and, and_true, Bool.and_eq_true, beq_iff_eq,
              decide_eq_true_eq]
            omega
        · -- Right-Right case
          rw [if_neg hbf]
          have hge : rheight rl ≤ rheight rr := by
            simp only [getBalanceFactor, Hrl, Hrr] at hbf
            omega
          simp only [rheight_node] at hrr hd1 hd2
          simp only [rotateLeft, hOKb_node_iff, balb_node_iff,
            rheight_node, hgt_node, Hrl, Hrr, Hl, hrh, hl, hrl, hrr2, bl, brl, brr,
            true_and, and_true]
          omega
    · -- balanced enough: no rotation
      rw [if_neg hc2]
      rw [Hl, Hr] at hc1 hc2
      simp only [hOKb_node_iff, balb_node_iff, rheight_node, hgt_node, Hl, Hr,
        hl, hr, bl, br, true_and, and_true, Bool.and_eq_true, beq_iff_eq,
        decide_eq_true_eq]
      exact ⟨⟨by omega, by omega⟩, Or.inl trivial⟩

end AVLTree

namespace AVLTree

variable {α : Type}

theorem forallT_node {p : α → Prop} {v : α} {l r : AVLTree α} {h : Nat} :
    ForallT p (.node v l r h) ↔ p v ∧ ForallT p l ∧ ForallT p r := Iff.rfl

theorem forallT_nil {p : α → Prop} : ForallT p (.nil : AVLTree α) := trivial

theorem forallT_iff {p : α → Prop} (t : AVLTree α) :
    ForallT p t ↔ ∀ x ∈ inOrderTraversal t, p x := by
  induction t with
  | nil => simp [ForallT, inOrderTraversal]
  | node v l r h ihl ihr =>
    simp only [ForallT, inOrderTraversal, List.mem_append, List.mem_cons, ihl, ihr]
    constructor
    · rintro ⟨hv, hl, hr⟩ x hx
      rcases hx with hx | rfl | hx
      · exact hl x hx
      · exact hv
      · exact hr x hx
    · intro hx
      exact ⟨hx v (Or.inr (Or.inl rfl)),
        fun x h => hx x (Or.inl h),
        fun x h => hx x (Or.inr (Or.inr h))⟩

theorem forallT_imp {p q : α → Prop} (h : ∀ x, p x → q x) (t : AVLTree α)
    (hp : ForallT p t) : ForallT q t := by
  rw [forallT_iff] at hp ⊢
  exact fun x hx => h x (hp x hx)

theorem bst_iff_pairwise [LinearOrder α] (t : AVLTree α) :
    BSTInv t ↔ (inOrderTraversal t).Pairwise (· < ·) := by
  induction t with
  | nil => simp [BSTInv, inOrderTraversal]
  | node v l r h ihl ihr =>
    simp only [BSTInv, inOrderTraversal, List.pairwise_append, List.pairwise_cons,
      forallT_iff, ihl, ihr, List.mem_cons]
    constructor
    · rintro ⟨h1, h2, b1, b2⟩
      refine ⟨b1, ⟨h2, b2⟩, ?_⟩
      rintro a ha b (rfl | hb)
      · exact h1 a ha
      · exact lt_trans (h1 a ha) (h2 b hb)
    · rintro ⟨b1, ⟨hvr, b2⟩, hcross⟩
      exact ⟨fun a ha => hcross a ha v (Or.inl rfl), hvr, b1, b2⟩

theorem cmp_pos_iff [LinearOrder α] {cmp : α → α → Int}
    (hltc : ∀ a b : α, cmp a b < 0 ↔ a < b)
    (heqc : ∀ a b : α, cmp a b = 0 ↔ a = b) (a b : α) :
    0 < cmp a b ↔ b < a := by
  constructor
  · intro h
    rcases lt_trichotomy a b with h' | h' | h'
    · have := (hltc a b).mpr h'
      omega
    · have := (heqc a b).mpr h'
      omega
    · exact h'
  · intro h
    have h1 : ¬cmp a b < 0 := fun hc => absurd ((hltc a b).mp hc) (lt_asymm h)
    have h2 : cmp a b ≠ 0 := fun hc => absurd ((heqc a b).mp hc) (ne_of_gt h)
    omega

theorem findMin_forall (p : α → Prop) (l : AVLTree α) :
    ∀ (v : α), p v → ForallT p l → p (findMinVal v l) := by
  induction l with
  | nil => intro v hv _; exact hv
  | node lv ll lr lh ihl ihr =>
    intro v _ hfa
    exact ihl lv hfa.1 hfa.2.1

theorem findMin_lb [LinearOrder α] (l : AVLTree α) :
    ∀ (v : α) (r : AVLTree α) (h : Nat), ForallT (· < v) l →
      ForallT (v < ·) r → BSTInv l →
      ForallT (findMinVal v l ≤ ·) (.node v l r h) := by
  induction l with
  | nil =>
    intro v r h _ hr _
    exact ⟨le_refl v, trivial, forallT_imp (fun x hx => le_of_lt hx) r hr⟩
  | node lv ll lr lh ihl ihr =>
    intro v r h hlt hgt2 hbst
    obtain ⟨hlv, hll, hlr2⟩ := hlt
    obtain ⟨b1, b2, b3, b4⟩ := hbst
    have key : ForallT (findMinVal lv ll ≤ ·) (.node lv ll lr lh) :=
      ihl lv lr lh b1 b2 b3
    have hmv : findMinVal lv ll < v := findMin_forall (· < v) ll lv hlv hll
    show ForallT (findMinVal lv ll ≤ ·) _
    exact ⟨le_of_lt hmv, key,
      forallT_imp (fun x hx => le_of_lt (lt_trans hmv hx)) r hgt2⟩

end AVLTree

namespace AVLTree

variable {α : Type}

theorem bst_node [LT α] {v : α} {l r : AVLTree α} {h : Nat} :
    BSTInv (.node v l r h) ↔
      ForallT (· < v) l ∧ ForallT (v < ·) r ∧ BSTInv l ∧ BSTInv r := Iff.rfl

theorem forallT_balance {p : α → Prop} (v : α) (l r : AVLTree α) (h : Nat)
    (hv : p v) (hl : ForallT p l) (hr : ForallT p r) :
    ForallT p (balance (updateHeight (.node v l r h))) := by
  rw [forallT_iff, inorder_balance, inorder_updateHeight]
  simp only [inOrderTraversal, List.mem_append, List.mem_cons]
  rintro x (hx | rfl | hx)
  · exact (forallT_iff l).mp hl x hx
  · exact hv
  · exact (forallT_iff r).mp hr x hx

theorem bst_balance [LinearOrder α] {v : α} {l r : AVLTree α} {h : Nat}
    (hb : BSTInv (.node v l r h)) :
    BSTInv (balance (updateHeight (.node v l r h))) := by
  rw [bst_iff_pairwise, inorder_balance, inorder_updateHeight]
  exact (bst_iff_pairwise _).mp hb

theorem remove_gt [LinearOrder α] {cmp : α → α → Int}
    (hltc : ∀ a b : α, cmp a b < 0 ↔ a < b)
    (heqc : ∀ a b : α, cmp a b = 0 ↔ a = b)
    (t : AVLTree α) : ∀ (w : α), BSTInv t → ForallT (w ≤ ·) t →
      ForallT (w < ·) (removeNode cmp t w).1 := by
  induction t with
  | nil => intro w _ _; exact trivial
  | node nv l r h ihl ihr =>
    intro w hbst hlb
    obtain ⟨o1, o2, o3, o4⟩ := hbst
    obtain ⟨lb0, lbl, lbr⟩ := hlb
    simp only [removeNode]
    by_cases hc1 : cmp w nv < 0
    · rw [if_pos hc1]
      have hwnv : w < nv := (hltc w nv).mp hc1
      have hl2 : ForallT (w < ·) (removeNode cmp l w).1 := ihl w o3 lbl
      have hr2 : ForallT (w < ·) r :=
        forallT_imp (fun x hx => lt_trans hwnv hx) r o2
      by_cases hp : (removeNode cmp l w).2 = true
      · rw [if_pos hp]
        exact forallT_balance nv _ r h hwnv hl2 hr2
      · rw [if_neg hp]
        exact ⟨hwnv, hl2, hr2⟩
    · rw [if_neg hc1]
      by_cases hc2 : 0 < cmp w nv
      · exact absurd ((cmp_pos_iff hltc heqc w nv).mp hc2) (not_lt.mpr lb0)
      · rw [if_neg hc2]
        have hc0 : cmp w nv = 0 := by omega
        have hw : w = nv := (heqc w nv).mp hc0
        subst hw
        cases l with
        | nil =>
          cases r with
          | nil => exact trivial
          | node rv rl rr rh => exact o2
        | node lv ll lr lh =>
          exact absurd lbl.1 (not_le.mpr o1.1)

end AVLTree

namespace AVLTree

variable {α : Type}

theorem insert_ok [LinearOrder α] {cmp : α → α → Int}
    (hltc : ∀ a b : α, cmp a b < 0 ↔ a < b)
    (heqc : ∀ a b : α, cmp a b = 0 ↔ a = b)
    (t : AVLTree α) : ∀ (v : α), hOKb t = true → balb t = true → BSTInv t →
      hOKb (insertNode cmp t v).1 = true ∧
      balb (insertNode cmp t v).1 = true ∧
      BSTInv (insertNode cmp t v).1 ∧
      rheight t ≤ rheight (insertNode cmp t v).1 ∧
      rheight (insertNode cmp t v).1 ≤ rheight t + 1 ∧
      (∀ p : α → Prop, ForallT p t → p v → ForallT p (insertNode cmp t v).1) ∧
      ((insertNode cmp t v).2 = false → (insertNode cmp t v).1 = t) := by
  induction t with
  | nil =>
    intro v _ _ _
    simp only [insertNode]
    refine ⟨rfl, rfl, ⟨trivial, trivial, trivial, trivial⟩, ?_, ?_, ?_, ?_⟩
    · simp [rheight]
    · simp [rheight]
    · intro p _ hv
      exact ⟨hv, trivial, trivial⟩
    · exact fun hx => nomatch hx
  | node nv l r h ihl ihr =>
    intro v hok hbal hbst
    obtain ⟨hokl, hokr, hsh⟩ := hOKb_node_iff.mp hok
    obtain ⟨ball, balr, bd1, bd2⟩ := balb_node_iff.mp hbal
    obtain ⟨o1, o2, o3, o4⟩ := hbst
    simp only [insertNode]
    by_cases hc0 : cmp v nv = 0
    · rw [if_pos hc0]
      exact ⟨hok, hbal, ⟨o1, o2, o3, o4⟩, le_refl _, Nat.le_succ _,
        fun p hp _ => hp, fun _ => rfl⟩
    · rw [if_neg hc0]
      by_cases hc1 : cmp v nv < 0
      · rw [if_pos hc1]
        have hvnv : v < nv := (hltc v nv).mp hc1
        obtain ⟨ih1, ih2, ih3, ih4, ih5, ih6, ih7⟩ := ihl v hokl ball o3
        by_cases hp : (insertNode cmp l v).2 = true
        · rw [if_pos hp]
          have B := balance_main nv h (insertNode cmp l v).1 r ih1 hokr ih2
            balr (by omega) (by omega)
          dsimp only
          refine ⟨B.1, B.2.1, ?_, ?_, ?_, ?_, fun hx => nomatch hx⟩
          · exact bst_balance ⟨ih6 (· < nv) o1 hvnv, o2, ih3, o4⟩
          · rcases B.2.2 with hB | ⟨hB, _⟩ <;> rw [rheight_node] <;> omega
          · rcases B.2.2 with hB | ⟨hB, _⟩ <;> rw [rheight_node] <;> omega
          · intro p hpt hv
            exact forallT_balance nv _ r h hpt.1 (ih6 p hpt.2.1 hv) hpt.2.2
        · rw [if_neg hp]
          simp only [Bool.not_eq_true] at hp
          rw [ih7 hp]
          exact ⟨hok, hbal, ⟨o1, o2, o3, o4⟩, le_refl _, Nat.le_succ _,
            fun p hpt _ => hpt, fun _ => rfl⟩
      · rw [if_neg hc1]
        have hnvv : nv < v := (cmp_pos_iff hltc heqc v nv).mp (by omega)
        obtain ⟨ih1, ih2, ih3, ih4, ih5, ih6, ih7⟩ := ihr v hokr balr o4
        by_cases hp : (insertNode cmp r v).2 = true
        · rw [if_pos hp]
          have B := balance_main nv h l (insertNode cmp r v).1 hokl ih1 ball
            ih2 (by omega) (by omega)
          dsimp only
          refine ⟨B.1, B.2.1, ?_, ?_, ?_, ?_, fun hx => nomatch hx⟩
          · exact bst_balance ⟨o1, ih6 (nv < ·) o2 hnvv, o3, ih3⟩
          · rcases B.2.2 with hB | ⟨hB, _⟩ <;> rw [rheight_node] <;> omega
          · rcases B.2.2 with hB | ⟨hB, _⟩ <;> rw [rheight_node] <;> omega
          · intro p hpt hv
            exact forallT_balance nv l _ h hpt.1 hpt.2.1 (ih6 p hpt.2.2 hv)
        · rw [if_neg hp]
          simp only [Bool.not_eq_true] at hp
          rw [ih7 hp]
          exact ⟨hok, hbal, ⟨o1, o2, o3, o4⟩, le_refl _, Nat.le_succ _,
            fun p hpt _ => hpt, fun _ => rfl⟩

end AVLTree

namespace AVLTree

variable {α : Type}

theorem rheight_nil : rheight (.nil : AVLTree α) = 0 := rfl

theorem remove_ok [LinearOrder α] {cmp : α → α → Int}
    (hltc : ∀ a b : α, cmp a b < 0 ↔ a < b)
    (heqc : ∀ a b : α, cmp a b = 0 ↔ a = b)
    (t : AVLTree α) : ∀ (v : α), hOKb t = true → balb t = true → BSTInv t →
      hOKb (removeNode cmp t v).1 = true ∧
      balb (removeNode cmp t v).1 = true ∧
      BSTInv (removeNode cmp t v).1 ∧
      rheight (removeNode cmp t v).1 ≤ rheight t ∧
      rheight t ≤ rheight (removeNode cmp t v).1 + 1 ∧
      (∀ p : α → Prop, ForallT p t → ForallT p (removeNode cmp t v).1) ∧
      ((removeNode cmp t v).2 = false → (removeNode cmp t v).1 = t) := by
  induction t with
  | nil =>
    intro v _ _ _
    exact ⟨rfl, rfl, trivial, le_refl _, by simp [removeNode, rheight],
      fun p _ => trivial, fun _ => rfl⟩
  | node nv l r h ihl ihr =>
    intro v hok hbal hbst
    obtain ⟨hokl, hokr, hsh⟩ := hOKb_node_iff.mp hok
    obtain ⟨ball, balr, bd1, bd2⟩ := balb_node_iff.mp hbal
    obtain ⟨o1, o2, o3, o4⟩ := hbst
    simp only [removeNode]
    by_cases hc1 : cmp v nv < 0
    · rw [if_pos hc1]
      obtain ⟨ih1, ih2, ih3, ih4, ih5, ih6, ih7⟩ := ihl v hokl ball o3
      by_cases hp : (removeNode cmp l v).2 = true
      · rw [if_pos hp]
        dsimp only
        have B := balance_main nv h (removeNode cmp l v).1 r ih1 hokr ih2
          balr (by omega) (by omega)
        refine ⟨B.1, B.2.1, ?_, ?_, ?_, ?_, fun hx => nomatch hx⟩
        · exact bst_balance ⟨ih6 (· < nv) o1, o2, ih3, o4⟩
        · rcases B.2.2 with hB | ⟨hB, _⟩ <;> rw [rheight_node] <;> omega
        · rcases B.2.2 with hB | ⟨hB, _⟩ <;> rw [rheight_node] <;> omega
        · intro p hpt
          exact forallT_balance nv _ r h hpt.1 (ih6 p hpt.2.1) hpt.2.2
      · rw [if_neg hp]
        simp only [Bool.not_eq_true] at hp
        rw [ih7 hp]
        exact ⟨hok, hbal, ⟨o1, o2, o3, o4⟩, le_refl _, Nat.le_succ _,
          fun p hpt => hpt, fun _ => rfl⟩
    · rw [if_neg hc1]
      by_cases hc2 : 0 < cmp v nv
      · rw [if_pos hc2]
        obtain ⟨ih1, ih2, ih3, ih4, ih5, ih6, ih7⟩ := ihr v hokr balr o4
        by_cases hp : (removeNode cmp r v).2 = true
        · rw [if_pos hp]
          dsimp only
          have B := balance_main nv h l (removeNode cmp r v).1 hokl ih1 ball
            ih2 (by omega) (by omega)
          refine ⟨B.1, B.2.1, ?_, ?_, ?_, ?_, fun hx => nomatch hx⟩
          · exact bst_balance ⟨o1, ih6 (nv < ·) o2, o3, ih3⟩
          · rcases B.2.2 with hB | ⟨hB, _⟩ <;> rw [rheight_node] <;> omega
          · rcases B.2.2 with hB | ⟨hB, _⟩ <;> rw [rheight_node] <;> omega
          · intro p hpt
            exact forallT_balance nv l _ h hpt.1 hpt.2.1 (ih6 p hpt.2.2)
        · rw [if_neg hp]
          simp only [Bool.not_eq_true] at hp
          rw [ih7 hp]
          exact ⟨hok, hbal, ⟨o1, o2, o3, o4⟩, le_refl _, Nat.le_succ _,
            fun p hpt => hpt, fun _ => rfl⟩
      · rw [if_neg hc2]
        cases l with
        | nil =>
          cases r with
          | nil =>
            dsimp only
            refine ⟨rfl, rfl, trivial, ?_, ?_, fun p _ => trivial,
              fun hx => nomatch hx⟩
            · simp [rheight]
            · simp [rheight]
          | node rv rl rr rh2 =>
            dsimp only
            refine ⟨hokr, balr, o4, ?_, ?_, ?_, fun hx => nomatch hx⟩
            · simp only [rheight_node, rheight_nil]; omega
            · simp only [rheight_node, rheight_nil]; omega
            · intro p hpt; exact hpt.2.2
        | node lv ll lr lh =>
          cases r with
          | nil =>
            dsimp only
            refine ⟨hokl, ball, o3, ?_, ?_, ?_, fun hx => nomatch hx⟩
            · simp only [rheight_node, rheight_nil]; omega
            · simp only [rheight_node, rheight_nil]; omega
            · intro p hpt; exact hpt.2.1
          | node rv rl rr rh2 =>
            dsimp only
            obtain ⟨jh1, jh2, jh3, jh4, jh5, jh6, jh7⟩ :=
              ihr (findMinVal rv rl) hokr balr o4
            have nvsucc : nv < findMinVal rv rl :=
              findMin_forall (nv < ·) rl rv o2.1 o2.2.1
            have lb : ForallT (findMinVal rv rl ≤ ·) (.node rv rl rr rh2) :=
              findMin_lb rl rv rr rh2 o4.1 o4.2.1 o4.2.2.1
            have sgt : ForallT (findMinVal rv rl < ·)
                (removeNode cmp (.node rv rl rr rh2) (findMinVal rv rl)).1 :=
              remove_gt hltc heqc (.node rv rl rr rh2) (findMinVal rv rl) o4 lb
            have B := balance_main (findMinVal rv rl) h (.node lv ll lr lh)
              (removeNode cmp (.node rv rl rr rh2) (findMinVal rv rl)).1
              hokl jh1 ball jh2 (by omega) (by omega)
            refine ⟨B.1, B.2.1, ?_, ?_, ?_, ?_, fun hx => nomatch hx⟩
            · refine bst_balance ⟨?_, sgt, o3, jh3⟩
              exact forallT_imp (fun x hx => lt_trans hx nvsucc) _ o1
            · rcases B.2.2 with hB | ⟨hB, _⟩ <;> rw [rheight_node] <;> omega
            · rcases B.2.2 with hB | ⟨hB, _⟩ <;> rw [rheight_node] <;> omega
            · intro p hpt
              refine forallT_balance (findMinVal rv rl) _ _ h ?_ hpt.2.1
                (jh6 p hpt.2.2)
              exact findMin_forall p rl rv hpt.2.2.1 hpt.2.2.2.1

end AVLTree

namespace AVLTree

variable {α : Type}

theorem strictAsc_of_pairwise [LinearOrder α] {cmp : α → α → Int}
    (hltc : ∀ a b : α, cmp a b < 0 ↔ a < b) :
    ∀ l : List α, l.Pairwise (· < ·) → strictAscB cmp l = true
  | [], _ => rfl
  | [_], _ => rfl
  | a :: b :: t, h => by
    simp only [strictAscB, Bool.and_eq_true, decide_eq_true_eq]
    obtain ⟨h1, h2⟩ := List.pairwise_cons.mp h
    exact ⟨(hltc a b).mpr (h1 b (List.mem_cons_self b t)),
      strictAsc_of_pairwise hltc (b :: t) h2⟩

end AVLTree

open AVLTree in
theorem runOps_inv {α : Type} [LinearOrder α] {cmp : α → α → Int}
    (hltc : ∀ a b : α, cmp a b < 0 ↔ a < b)
    (heqc : ∀ a b : α, cmp a b = 0 ↔ a = b) :
    ∀ (ops : List (SetOp α)) (s : SortedSetSt α),
      hOKb s.root = true → balb s.root = true → BSTInv s.root →
      hOKb (ops.foldl (applySetOp cmp) s).root = true ∧
      balb (ops.foldl (applySetOp cmp) s).root = true ∧
      BSTInv (ops.foldl (applySetOp cmp) s).root := by
  intro ops
  induction ops with
  | nil => exact fun s h1 h2 h3 => ⟨h1, h2, h3⟩
  | cons op rest ih =>
    intro s h1 h2 h3
    rw [List.foldl_cons]
    refine ih _ ?_ ?_ ?_ <;> cases op with
    | add v =>
      first
      | exact (insert_ok hltc heqc s.root v h1 h2 h3).1
      | exact (insert_ok hltc heqc s.root v h1 h2 h3).2.1
      | exact (insert_ok hltc heqc s.root v h1 h2 h3).2.2.1
    | del v =>
      first
      | exact (remove_ok hltc heqc s.root v h1 h2 h3).1
      | exact (remove_ok hltc heqc s.root v h1 h2 h3).2.1
      | exact (remove_ok hltc heqc s.root v h1 h2 h3).2.2.1

/-- C1: after any sequence of `add`/`delete` operations starting from a fresh
`SortedSet`, every node's stored height is `1 + max` of the children's
heights, the children's heights differ by at most one at every node, and
`toArray` (the in-order traversal behind `values()`) is strictly ascending
under the configured comparator. -/
theorem C1_avl_invariant {α : Type} [LinearOrder α] {cmp : α → α → Int}
    (hltc : ∀ a b : α, cmp a b < 0 ↔ a < b)
    (heqc : ∀ a b : α, cmp a b = 0 ↔ a = b)
    (ops : List (SetOp α)) :
    AVLTree.hOKb (runSetOps cmp ops).root = true ∧
    AVLTree.balb (runSetOps cmp ops).root = true ∧
    AVLTree.strictAscB cmp ((runSetOps cmp ops).toArray) = true := by
  obtain ⟨h1, h2, h3⟩ :=
    runOps_inv hltc heqc ops SortedSetSt.empty rfl rfl trivial
  exact ⟨h1, h2, AVLTree.strictAsc_of_pairwise hltc _
    ((AVLTree.bst_iff_pairwise _).mp h3)⟩

/-- Witness: the comparator laws hold for `defaultCompare` on `Fin 3`, and the
invariants hold after a concrete operation sequence exercising insertions,
rebalancing deletions and duplicates. -/
theorem C1_avl_invariant_witness :
    (∀ a b : Fin 3, defaultCompare a b < 0 ↔ a < b) ∧
    (∀ a b : Fin 3, defaultCompare a b = 0 ↔ a = b) ∧
    (AVLTree.hOKb (runSetOps defaultCompare
        [SetOp.add 1, SetOp.add 0, SetOp.add 2, SetOp.del 1,
         SetOp.add 1, SetOp.del 0]).root = true ∧
     AVLTree.balb (runSetOps defaultCompare
        [SetOp.add 1, SetOp.add 0, SetOp.add 2, SetOp.del 1,
         SetOp.add 1, SetOp.del 0]).root = true ∧
     AVLTree.strictAscB defaultCompare ((runSetOps defaultCompare
        [SetOp.add 1, SetOp.add 0, SetOp.add 2, SetOp.del 1,
         SetOp.add 1, SetOp.del 0] : SortedSetSt (Fin 3)).toArray) = true) :=
  ⟨by decide, by decide,
    @C1_avl_invariant (Fin 3) _ defaultCompare (by decide) (by decide)
      [SetOp.add 1, SetOp.add 0, SetOp.add 2, SetOp.del 1,
       SetOp.add 1, SetOp.del 0]⟩

/-! ### Codec lemmas -/

mutual

theorem beqJSValue_iff : ∀ (a b : JSValue), beqJSValue a b = true ↔ a = b
  | .str s, b => by cases b <;> simp [beqJSValue]
  | .int n, b => by cases b <;> simp [beqJSValue]
  | .double s, b => by cases b <;> simp [beqJSValue]
  | .bool x, b => by cases b <;> simp [beqJSValue]
  | .null, b => by cases b <;> simp [beqJSValue]
  | .undef, b => by cases b <;> simp [beqJSValue]
  | .err m, b => by cases b <;> simp [beqJSValue]
  | .arr xs, b => by cases b <;> simp [beqJSValue, beqJSList_iff xs]
  | .map ps, b => by cases b <;> simp [beqJSValue, beqJSPairs_iff ps]

theorem beqJSList_iff : ∀ (a b : List JSValue), beqJSList a b = true ↔ a = b
  | [], b => by cases b <;> simp [beqJSList]
  | x :: xs, [] => by simp [beqJSList]
  | x :: xs, y :: ys => by
    simp [beqJSList, beqJSValue_iff x y, beqJSList_iff xs ys]

theorem beqJSPairs_iff :
    ∀ (a b : List (JSValue × JSValue)), beqJSPairs a b = true ↔ a = b
  | [], b => by cases b <;> simp [beqJSPairs]
  | (k, v) :: ps, [] => by simp [beqJSPairs]
  | (k1, v1) :: ps1, (k2, v2) :: ps2 => by
    simp [beqJSPairs, beqJSValue_iff k1 k2, beqJSValue_iff v1 v2,
      beqJSPairs_iff ps1 ps2]

end

theorem digitChar_mem_table {n : Nat} (h : n < 10) :
    digitChar n ∈ (['0', '1', '2', '3', '4', '5', '6', '7', '8', '9'] : List Char) := by
  interval_cases n <;> decide

theorem digit_table_facts :
    ∀ c ∈ (['0', '1', '2', '3', '4', '5', '6', '7', '8', '9'] : List Char),
      c.isDigit = true ∧ c.isWhitespace = false ∧ c ≠ '-' ∧ c ≠ '+' ∧
        c ≠ '\r' ∧ c ≠ '\n' ∧ c.toNat < 128 := by decide

theorem digitChar_toNat {n : Nat} (h : n < 10) : (digitChar n).toNat = 48 + n := by
  interval_cases n <;> rfl

theorem natToStrAux_mem : ∀ (fuel n : Nat), n < fuel →
    ∀ c ∈ natToStrAux fuel n,
      c ∈ (['0', '1', '2', '3', '4', '5', '6', '7', '8', '9'] : List Char)
  | 0, n, h => by omega
  | fuel + 1, n, h => by
    intro c hc
    simp only [natToStrAux] at hc
    by_cases h10 : n < 10
    · rw [if_pos h10] at hc
      simp at hc
      subst hc
      exact digitChar_mem_table h10
    · rw [if_neg h10] at hc
      rcases List.mem_append.mp hc with hc | hc
      · exact natToStrAux_mem fuel (n / 10) (by omega) c hc
      · simp at hc
        subst hc
        exact digitChar_mem_table (by omega)

theorem natToStr_mem {n : Nat} :
    ∀ c ∈ natToStr n,
      c ∈ (['0', '1', '2', '3', '4', '5', '6', '7', '8', '9'] : List Char) :=
  natToStrAux_mem (n + 1) n (by omega)

theorem natToStrAux_ne_nil : ∀ (fuel n : Nat), n < fuel →
    natToStrAux fuel n ≠ []
  | 0, n, h => by omega
  | fuel + 1, n, h => by
    simp only [natToStrAux]
    by_cases h10 : n < 10
    · rw [if_pos h10]; simp
    · rw [if_neg h10]; simp

theorem natToStr_ne_nil (n : Nat) : natToStr n ≠ [] :=
  natToStrAux_ne_nil (n + 1) n (by omega)

theorem natToStrAux_foldl : ∀ (fuel n : Nat), n < fuel → ∀ (a : Nat),
    (natToStrAux fuel n).foldl (fun a c => a * 10 + (c.toNat - 48)) a =
      a * 10 ^ (natToStrAux fuel n).length + n
  | 0, n, h => by omega
  | fuel + 1, n, h => by
    intro a
    simp only [natToStrAux]
    by_cases h10 : n < 10
    · rw [if_pos h10]
      simp only [List.foldl, List.length_cons, List.length_nil, pow_one,
        digitChar_toNat h10]
      omega
    · rw [if_neg h10]
      rw [List.foldl_append]
      have IH := natToStrAux_foldl fuel (n / 10) (by omega) a
      rw [IH]
      simp only [List.foldl, List.length_append, List.length_cons,
        List.length_nil, digitChar_toNat (by omega : n % 10 < 10)]
      rw [pow_succ, ← Nat.mul_assoc]
      have := Nat.div_add_mod n 10
      omega

theorem takeWhile_all {p : Char → Bool} : ∀ {l : Str}, (∀ c ∈ l, p c = true) →
    l.takeWhile p = l
  | [], _ => rfl
  | c :: rest, h => by
    simp only [List.takeWhile, h c (List.mem_cons_self c rest)]
    exact congrArg (c :: ·) (takeWhile_all fun d hd => h d (List.mem_cons_of_mem c hd))

theorem parseDigitsVal_natToStr (n : Nat) : parseDigitsVal (natToStr n) = some n := by
  unfold parseDigitsVal
  have hdig : ∀ c ∈ natToStr n, c.isDigit = true := fun c hc =>
    (digit_table_facts c (natToStr_mem c hc)).1
  simp only [takeWhile_all hdig]
  have hne : (natToStr n).isEmpty = false := by
    cases hnn : natToStr n with
    | nil => exact absurd hnn (natToStr_ne_nil n)
    | cons c rest => rfl
  rw [hne]
  simp only [Bool.false_eq_true, if_false]
  have := natToStrAux_foldl (n + 1) n (by omega) 0
  unfold natToStr
  rw [this]
  simp

theorem jsParseInt_natToStr (n : Nat) : jsParseInt (natToStr n) = some (n : Int) := by
  unfold jsParseInt
  obtain ⟨c, rest, hcr⟩ : ∃ c rest, natToStr n = c :: rest := by
    cases hnn : natToStr n with
    | nil => exact absurd hnn (natToStr_ne_nil n)
    | cons c rest => exact ⟨c, rest, rfl⟩
  have hc := @natToStr_mem n c (by rw [hcr]; exact List.mem_cons_self c rest)
  obtain ⟨_, hws, hminus, hplus, _, _, _⟩ := digit_table_facts c hc
  rw [hcr]
  rw [List.dropWhile_cons_of_neg (by simp [hws])]
  dsimp only
  split
  · next r heq =>
    exact absurd (List.head_eq_of_cons_eq heq) hminus
  · next r heq =>
    exact absurd (List.head_eq_of_cons_eq heq) hplus
  · rw [← hcr, parseDigitsVal_natToStr]
    rfl

theorem jsParseInt_intToStr (n : Int) : jsParseInt (intToStr n) = some n := by
  unfold intToStr
  by_cases hn : n < 0
  · rw [if_pos hn]
    unfold jsParseInt
    rw [List.dropWhile_cons_of_neg (by decide)]
    show Option.map (fun n => -Int.ofNat n) (parseDigitsVal (natToStr n.natAbs))
      = some n
    rw [parseDigitsVal_natToStr]
    show some (-Int.ofNat n.natAbs) = some n
    congr 1
    rw [Int.ofNat_eq_natCast]
    omega
  · rw [if_neg hn]
    rw [jsParseInt_natToStr]
    congr 1
    omega

theorem byteLength_ascii : ∀ {s : Str}, (∀ c ∈ s, c.toNat < 128) →
    byteLength s = s.length
  | [], _ => rfl
  | c :: rest, h => by
    have hc : charBytes c = 1 := by
      unfold charBytes
      rw [if_pos (h c (List.mem_cons_self c rest))]
    simp only [byteLength, List.map_cons, List.sum_cons, hc, List.length_cons]
    have := byteLength_ascii (fun d hd => h d (List.mem_cons_of_mem c hd))
    unfold byteLength at this
    omega

theorem crlfFreeB_tail {c : Char} {s : Str} (h : crlfFreeB (c :: s) = true) :
    crlfFreeB s = true := by
  cases s with
  | nil => rfl
  | cons d rest =>
    simp only [crlfFreeB, Bool.and_eq_true] at h
    exact h.2

theorem crlfFreeB_of_no_cr : ∀ {l : Str}, (∀ c ∈ l, c ≠ '\r') →
    crlfFreeB l = true
  | [], _ => rfl
  | [_], _ => rfl
  | c :: d :: rest, h => by
    simp only [crlfFreeB, Bool.and_eq_true, Bool.not_eq_true']
    constructor
    · simp [h c (by simp)]
    · exact crlfFreeB_of_no_cr fun e he => h e (List.mem_cons_of_mem c he)

theorem splitCRLF_ne_nil : ∀ s : Str, splitCRLF s ≠ []
  | [] => by simp [splitCRLF]
  | [c] => by simp [splitCRLF]
  | c :: d :: rest => by
    simp only [splitCRLF]
    split
    · simp
    · split <;> simp

theorem splitCRLF_append : ∀ (l : Str), crlfFreeB l = true → ∀ s : Str,
    splitCRLF (l ++ (CRLF ++ s)) = l :: splitCRLF s
  | [], _, s => by simp [CRLF, splitCRLF]
  | [c], _, s => by
    show splitCRLF (c :: '\r' :: '\n' :: s) = [c] :: splitCRLF s
    simp only [splitCRLF]
    rw [if_neg (by simp)]
    rfl
  | c :: d :: rest, h, s => by
    simp only [crlfFreeB, Bool.and_eq_true, Bool.not_eq_true'] at h
    have IH := splitCRLF_append (d :: rest) h.2 s
    show splitCRLF (c :: d :: (rest ++ (CRLF ++ s))) = _
    simp only [splitCRLF]
    rw [if_neg (by simp_all)]
    have hshape : d :: (rest ++ (CRLF ++ s)) = (d :: rest) ++ (CRLF ++ s) := rfl
    rw [hshape, IH]

theorem splitCRLF_joinCRLF : ∀ (ls : List Str),
    (∀ l ∈ ls, crlfFreeB l = true) →
    splitCRLF (joinCRLF ls) = ls ++ [[]]
  | [], _ => rfl
  | l :: ls, h => by
    simp only [joinCRLF]
    rw [List.append_assoc, splitCRLF_append l (h l (by simp)),
      splitCRLF_joinCRLF ls (fun x hx => h x (List.mem_cons_of_mem l hx))]
    rfl

theorem joinCRLF_append : ∀ (a b : List Str),
    joinCRLF (a ++ b) = joinCRLF a ++ joinCRLF b
  | [], b => rfl
  | l :: ls, b => by
    show l ++ CRLF ++ joinCRLF (ls ++ b) = l ++ CRLF ++ joinCRLF ls ++ joinCRLF b
    rw [joinCRLF_append ls b]
    simp only [List.append_assoc]

theorem crlfFreeB_cons_of_ne {c : Char} (hc : c ≠ '\r') (s : Str) :
    crlfFreeB (c :: s) = crlfFreeB s := by
  cases s with
  | nil => rfl
  | cons d rest => simp [crlfFreeB, hc]

theorem intToStr_mem {n : Int} :
    ∀ c ∈ intToStr n, c = '-' ∨
      c ∈ (['0', '1', '2', '3', '4', '5', '6', '7', '8', '9'] : List Char) := by
  intro c hc
  unfold intToStr at hc
  by_cases hn : n < 0
  · rw [if_pos hn] at hc
    rcases List.mem_cons.mp hc with rfl | hc
    · exact Or.inl rfl
    · exact Or.inr (natToStr_mem c hc)
  · rw [if_neg hn] at hc
    exact Or.inr (natToStr_mem c hc)

mutual

theorem serialise_lines (cr : List Str) :
    ∀ v : JSValue, serialise cr v = joinCRLF (respLines cr v)
  | .str s => by
    simp only [serialise, serialiseString, respLines]
    by_cases h0 : s.length = 0
    · rw [if_pos h0, if_pos h0]
      simp [joinCRLF, CRLF]
    · rw [if_neg h0, if_neg h0]
      by_cases hm : s ∈ cr
      · rw [if_pos hm, if_pos hm]
        simp [serialiseSimpleString, joinCRLF]
      · rw [if_neg hm, if_neg hm]
        simp [serialiseBulkString, joinCRLF]
  | .int n => by simp [serialise, serialiseInteger, respLines, joinCRLF]
  | .double s => by simp [serialise, serialiseDouble, respLines, joinCRLF]
  | .bool b => by
    cases b <;> simp [serialise, serialiseBoolean, respLines, joinCRLF]
  | .null => by simp [serialise, serialiseNull, respLines, joinCRLF]
  | .undef => by simp [serialise, serialiseNIL, respLines, joinCRLF]
  | .err m => by
    simp only [serialise, serialiseError, respLines]
    by_cases h : m.length < 10
    · rw [if_pos h, if_pos h]
      simp [joinCRLF]
    · rw [if_neg h, if_neg h]
      simp [serialiseBulkError, joinCRLF]
  | .arr xs => by
    simp only [serialise, respLines]
    by_cases h : xs.length = 0
    · rw [if_pos h, if_pos h]
      simp [joinCRLF]
    · rw [if_neg h, if_neg h]
      rw [serialiseSeq_lines cr xs]
      simp only [joinCRLF, joinCRLF_append, List.append_assoc, List.append_nil,
        List.nil_append]
  | .map ps => by
    simp only [serialise, respLines]
    rw [serialisePairs_lines cr ps]
    simp only [joinCRLF, joinCRLF_append, List.append_assoc, List.append_nil,
      List.nil_append]

theorem serialiseSeq_lines (cr : List Str) :
    ∀ xs : List JSValue, serialiseSeq cr xs = joinCRLF (respLinesSeq cr xs)
  | [] => rfl
  | v :: vs => by
    simp only [serialiseSeq, respLinesSeq, joinCRLF_append,
      serialise_lines cr v, serialiseSeq_lines cr vs]

theorem serialisePairs_lines (cr : List Str) :
    ∀ ps : List (JSValue × JSValue),
      serialisePairs cr ps = joinCRLF (respLinesPairs cr ps)
  | [] => rfl
  | (k, v) :: ps => by
    simp only [serialisePairs, respLinesPairs, joinCRLF_append,
      serialise_lines cr k, serialise_lines cr v, serialisePairs_lines cr ps,
      List.append_assoc]

end

theorem tag_digits_crlfFree {t : Char} (ht : t ≠ '\r') {n : Nat} :
    crlfFreeB (t :: natToStr n) = true := by
  rw [crlfFreeB_cons_of_ne ht]
  exact crlfFreeB_of_no_cr fun c hc =>
    (digit_table_facts c (natToStr_mem c hc)).2.2.2.2.1

mutual

theorem respLines_crlfFree (cr : List Str) :
    ∀ v : JSValue, good v = true → ∀ l ∈ respLines cr v, crlfFreeB l = true
  | .str s, hv, l, hl => by
    simp only [good, Bool.and_eq_true] at hv
    obtain ⟨⟨hne, hcf⟩, _⟩ := hv
    simp only [respLines] at hl
    rw [if_neg (by simpa [List.isEmpty_iff, List.length_eq_zero] using hne)] at hl
    by_cases hm : s ∈ cr
    · rw [if_pos hm] at hl
      simp only [List.mem_singleton] at hl
      subst hl
      rw [crlfFreeB_cons_of_ne (by decide)]
      exact hcf
    · rw [if_neg hm] at hl
      rcases List.mem_pair.mp hl with rfl | rfl
      · exact tag_digits_crlfFree (by decide)
      · exact hcf
  | .int n, _, l, hl => by
    simp only [respLines, List.mem_singleton] at hl
    subst hl
    rw [crlfFreeB_cons_of_ne (by decide)]
    exact crlfFreeB_of_no_cr fun c hc => by
      rcases intToStr_mem c hc with rfl | hmem
      · decide
      · exact (digit_table_facts c hmem).2.2.2.2.1
  | .double s, hv, l, hl => by simp [good] at hv
  | .bool b, hv, l, hl => by simp [good] at hv
  | .null, _, l, hl => by
    simp only [respLines, List.mem_singleton] at hl
    subst hl
    rfl
  | .undef, hv, l, hl => by simp [good] at hv
  | .err m, hv, l, hl => by simp [good] at hv
  | .arr xs, hv, l, hl => by
    simp only [good] at hv
    simp only [respLines] at hl
    by_cases h0 : xs.length = 0
    · rw [if_pos h0] at hl
      simp only [List.mem_singleton] at hl
      subst hl
      rfl
    · rw [if_neg h0] at hl
      rcases List.mem_cons.mp hl with rfl | hl
      · exact tag_digits_crlfFree (by decide)
      · rcases List.mem_append.mp hl with hl | hl
        · exact respLinesSeq_crlfFree cr xs hv l hl
        · simp only [List.mem_singleton] at hl
          subst hl
          rfl
  | .map ps, hv, l, hl => by
    simp only [good] at hv
    simp only [respLines] at hl
    rcases List.mem_cons.mp hl with rfl | hl
    · exact tag_digits_crlfFree (by decide)
    · rcases List.mem_append.mp hl with hl | hl
      · exact respLinesPairs_crlfFree cr ps hv l hl
      · simp only [List.mem_singleton] at hl
        subst hl
        rfl

theorem respLinesSeq_crlfFree (cr : List Str) :
    ∀ xs : List JSValue, goodList xs = true →
      ∀ l ∈ respLinesSeq cr xs, crlfFreeB l = true
  | [], _, l, hl => by simp [respLinesSeq] at hl
  | v :: vs, h, l, hl => by
    simp only [goodList, Bool.and_eq_true] at h
    simp only [respLinesSeq] at hl
    rcases List.mem_append.mp hl with hl | hl
    · exact respLines_crlfFree cr v h.1 l hl
    · exact respLinesSeq_crlfFree cr vs h.2 l hl

theorem respLinesPairs_crlfFree (cr : List Str) :
    ∀ ps : List (JSValue × JSValue), goodPairs ps = true →
      ∀ l ∈ respLinesPairs cr ps, crlfFreeB l = true
  | [], _, l, hl => by simp [respLinesPairs] at hl
  | (k, v) :: ps, h, l, hl => by
    simp only [goodPairs, Bool.and_eq_true] at h
    simp only [respLinesPairs] at hl
    rcases List.mem_append.mp hl with hl | hl
    · rcases List.mem_append.mp hl with hl | hl
      · exact respLines_crlfFree cr k h.1.1.1 l hl
      · exact respLines_crlfFree cr v h.1.1.2 l hl
    · exact respLinesPairs_crlfFree cr ps h.2 l hl

end

theorem keyNotIn_iff {k : JSValue} : ∀ {ps : List (JSValue × JSValue)},
    keyNotIn k ps = true ↔ ∀ p ∈ ps, p.1 ≠ k
  | [] => by simp [keyNotIn]
  | (k', v') :: rest => by
    simp only [keyNotIn, Bool.and_eq_true, Bool.not_eq_true',
      @keyNotIn_iff k rest]
    constructor
    · rintro ⟨h1, h2⟩ p hp
      rcases List.mem_cons.mp hp with rfl | hp
      · intro he
        rw [← (beqJSValue_iff k' k)] at he
        simp [he] at h1
      · exact h2 p hp
    · intro h
      refine ⟨?_, fun p hp => h p (List.mem_cons_of_mem _ hp)⟩
      have := h (k', v') (List.mem_cons_self _ _)
      rw [show (beqJSValue k' k = false) ↔ ¬(beqJSValue k' k = true) by simp]
      rw [beqJSValue_iff]
      exact this

theorem jsMapSet_append : ∀ {m : List (JSValue × JSValue)} {k v : JSValue},
    (∀ p ∈ m, p.1 ≠ k) → jsMapSet m k v = m ++ [(k, v)]
  | [], k, v, _ => rfl
  | (k', v') :: rest, k, v, h => by
    simp only [jsMapSet]
    rw [if_neg ?hne]
    case hne =>
      rw [beqJSValue_iff]
      exact h (k', v') (List.mem_cons_self _ _)
    rw [jsMapSet_append fun p hp => h p (List.mem_cons_of_mem _ hp)]
    rfl

theorem respToksSeq_cons (cr : List Str) (v : JSValue) (vs : List JSValue) :
    respToksSeq cr (v :: vs) = respToks cr v ++ respToksSeq cr vs := by
  simp [respToksSeq, respToks, respLinesSeq, List.filter_append]

theorem respToksPairs_cons (cr : List Str) (k v : JSValue)
    (ps : List (JSValue × JSValue)) :
    respToksPairs cr ((k, v) :: ps) =
      respToks cr k ++ respToks cr v ++ respToksPairs cr ps := by
  simp [respToksPairs, respToks, respLinesPairs, List.filter_append]

theorem respToks_str_simple {cr : List Str} {s : Str} (h0 : s ≠ [])
    (hm : s ∈ cr) : respToks cr (.str s) = ['+' :: s] := by
  simp only [respToks, respLines]
  rw [if_neg (by simpa [List.length_eq_zero] using h0), if_pos hm]
  simp

theorem respToks_str_bulk {cr : List Str} {s : Str} (h0 : s ≠ [])
    (hm : s ∉ cr) : respToks cr (.str s) =
      ['$' :: natToStr (byteLength s), s] := by
  simp only [respToks, respLines]
  rw [if_neg (by simpa [List.length_eq_zero] using h0), if_neg hm]
  simp [h0]

theorem respToks_int {cr : List Str} {n : Int} :
    respToks cr (.int n) = [':' :: intToStr n] := by
  simp [respToks, respLines]

theorem respToks_null {cr : List Str} : respToks cr .null = [['_']] := by
  simp [respToks, respLines]

theorem respToks_arr_nil {cr : List Str} : respToks cr (.arr []) = [['*', '0']] := by
  simp [respToks, respLines]

theorem respToks_arr_cons {cr : List Str} {xs : List JSValue}
    (h : xs.length ≠ 0) : respToks cr (.arr xs) =
      ('*' :: natToStr xs.length) :: respToksSeq cr xs := by
  simp only [respToks, respLines]
  rw [if_neg h]
  simp [respToksSeq, List.filter_append]

theorem respToks_map {cr : List Str} {ps : List (JSValue × JSValue)} :
    respToks cr (.map ps) =
      ('%' :: natToStr ps.length) :: respToksPairs cr ps := by
  simp [respToks, respLines, respToksPairs, List.filter_append]

mutual

theorem parse_ok (cr : List Str) : ∀ (v : JSValue), good v = true →
    ∀ (fuel : Nat) (rest : List Str), (respToks cr v).length ≤ fuel →
    parseNextF fuel (respToks cr v ++ rest) = .ok (v, rest)
  | .str s, hv, fuel, rest, hfu => by
    simp only [good, Bool.and_eq_true, Bool.not_eq_true',
      List.all_eq_true, decide_eq_true_eq] at hv
    obtain ⟨⟨hne, hcf⟩, hascii⟩ := hv
    have hne2 : s ≠ [] := by
      cases s with
      | nil => simp at hne
      | cons a b => simp
    by_cases hm : s ∈ cr
    · rw [respToks_str_simple hne2 hm] at hfu ⊢
      obtain ⟨f, rfl⟩ : ∃ f, fuel = f + 1 := ⟨fuel - 1, by simp at hfu; omega⟩
      rfl
    · rw [respToks_str_bulk hne2 hm] at hfu ⊢
      obtain ⟨f, rfl⟩ : ∃ f, fuel = f + 1 := ⟨fuel - 1, by simp at hfu; omega⟩
      have hlen : byteLength s = s.length := byteLength_ascii hascii
      show (match jsParseInt (natToStr (byteLength s)) with
            | some len =>
              if len = -1 then Except.ok (JSValue.null, s :: rest)
              else if ((s.length : Int) = len) then
                Except.ok (JSValue.str s, rest)
              else Except.error "Bulk String length mismatch".toList
            | none => Except.error "Bulk String length mismatch".toList)
          = Except.ok (JSValue.str s, rest)
      rw [jsParseInt_natToStr (byteLength s)]
      dsimp only
      rw [if_neg (by omega : ¬(((byteLength s : Nat) : Int) = -1))]
      rw [if_pos
        (by rw [hlen] : ((s.length : Nat) : Int) = ((byteLength s : Nat) : Int))]
  | .int n, _, fuel, rest, hfu => by
    rw [respToks_int] at hfu ⊢
    obtain ⟨f, rfl⟩ : ∃ f, fuel = f + 1 := ⟨fuel - 1, by simp at hfu; omega⟩
    show (match jsParseInt (intToStr n) with
          | none =>
            Except.error ("Invalid integer format: ".toList ++ intToStr n)
          | some m => Except.ok (JSValue.int m, rest))
        = Except.ok (JSValue.int n, rest)
    rw [jsParseInt_intToStr n]
  | .double s, hv, _, _, _ => by simp [good] at hv
  | .bool b, hv, _, _, _ => by simp [good] at hv
  | .null, _, fuel, rest, hfu => by
    rw [respToks_null] at hfu ⊢
    obtain ⟨f, rfl⟩ : ∃ f, fuel = f + 1 := ⟨fuel - 1, by simp at hfu; omega⟩
    rfl
  | .undef, hv, _, _, _ => by simp [good] at hv
  | .err m, hv, _, _, _ => by simp [good] at hv
  | .arr xs, hv, fuel, rest, hfu => by
    simp only [good] at hv
    by_cases h0 : xs.length = 0
    · have hxs : xs = [] := List.length_eq_zero.mp h0
      subst hxs
      rw [respToks_arr_nil] at hfu ⊢
      obtain ⟨f, rfl⟩ : ∃ f, fuel = f + 1 := ⟨fuel - 1, by simp at hfu; omega⟩
      rfl
    · rw [respToks_arr_cons h0] at hfu ⊢
      obtain ⟨f, rfl⟩ : ∃ f, fuel = f + 1 := ⟨fuel - 1, by simp at hfu; omega⟩
      have hseq := parseSeq_ok cr xs hv f rest
        (by simp only [List.length_cons] at hfu; omega)
      show (match jsParseInt (natToStr xs.length) with
            | none => Except.ok (JSValue.arr [], respToksSeq cr xs ++ rest)
            | some len =>
              if len = -1 then
                Except.ok (JSValue.null, respToksSeq cr xs ++ rest)
              else
                match parseManyF (parseNextF f) len.toNat
                    (respToksSeq cr xs ++ rest) with
                | .error e => .error e
                | .ok (vs, ts2) => .ok (.arr vs, ts2))
          = Except.ok (JSValue.arr xs, rest)
      rw [jsParseInt_natToStr xs.length]
      dsimp only
      rw [if_neg (by omega : ¬(((xs.length : Nat) : Int) = -1))]
      rw [show ((xs.length : Nat) : Int).toNat = xs.length from Int.toNat_natCast _]
      rw [hseq]
  | .map ps, hv, fuel, rest, hfu => by
    simp only [good] at hv
    rw [respToks_map] at hfu ⊢
    obtain ⟨f, rfl⟩ : ∃ f, fuel = f + 1 := ⟨fuel - 1, by simp at hfu; omega⟩
    have hpp := parsePairs_ok cr ps hv [] (fun p _ => rfl) f rest
      (by simp only [List.length_cons] at hfu; omega)
    show (match jsParseInt (natToStr ps.length) with
          | none => Except.ok (JSValue.map [], respToksPairs cr ps ++ rest)
          | some len =>
            if len < 0 then Except.error "Map length must be > 0".toList
            else
              match parsePairsF (parseNextF f) len.toNat []
                  (respToksPairs cr ps ++ rest) with
              | .error e => .error e
              | .ok (qs, ts2) => .ok (.map qs, ts2))
        = Except.ok (JSValue.map ps, rest)
    rw [jsParseInt_natToStr ps.length]
    dsimp only
    rw [if_neg (by omega : ¬(((ps.length : Nat) : Int) < 0))]
    rw [show ((ps.length : Nat) : Int).toNat = ps.length from Int.toNat_natCast _]
    rw [hpp]
    dsimp only
    rfl

theorem parseSeq_ok (cr : List Str) : ∀ (xs : List JSValue),
    goodList xs = true → ∀ (fuel : Nat) (rest : List Str),
    (respToksSeq cr xs).length ≤ fuel →
    parseManyF (parseNextF fuel) xs.length (respToksSeq cr xs ++ rest) =
      .ok (xs, rest)
  | [], _, fuel, rest, _ => by
    show parseManyF (parseNextF fuel) 0 (respToksSeq cr [] ++ rest) = _
    rfl
  | v :: vs, h, fuel, rest, hfu => by
    simp only [goodList, Bool.and_eq_true] at h
    rw [respToksSeq_cons] at hfu ⊢
    rw [List.length_append] at hfu
    simp only [List.length_cons, List.append_assoc, parseManyF]
    rw [parse_ok cr v h.1 fuel _ (by omega)]
    dsimp only
    rw [parseSeq_ok cr vs h.2 fuel rest (by omega)]

theorem parsePairs_ok (cr : List Str) : ∀ (ps : List (JSValue × JSValue)),
    goodPairs ps = true → ∀ (acc : List (JSValue × JSValue)),
    (∀ p ∈ ps, keyNotIn p.1 acc = true) →
    ∀ (fuel : Nat) (rest : List Str),
    (respToksPairs cr ps).length ≤ fuel →
    parsePairsF (parseNextF fuel) ps.length acc
        (respToksPairs cr ps ++ rest) = .ok (acc ++ ps, rest)
  | [], _, acc, _, fuel, rest, _ => by
    show parsePairsF (parseNextF fuel) 0 acc (respToksPairs cr [] ++ rest) = _
    simp [parsePairsF, respToksPairs, respLinesPairs]
  | (k, w) :: ps, h, acc, hfresh, fuel, rest, hfu => by
    simp only [goodPairs, Bool.and_eq_true] at h
    obtain ⟨⟨⟨hk, hw⟩, hnin⟩, hps⟩ := h
    rw [respToksPairs_cons] at hfu ⊢
    rw [List.length_append, List.length_append] at hfu
    have hfr : ∀ p ∈ ps, keyNotIn p.1 (acc ++ [(k, w)]) = true := by
      intro p hp
      rw [keyNotIn_iff]
      intro q hq
      rcases List.mem_append.mp hq with hq | hq
      · exact keyNotIn_iff.mp (hfresh p (List.mem_cons_of_mem _ hp)) q hq
      · simp only [List.mem_singleton] at hq
        subst hq
        intro he
        exact (keyNotIn_iff.mp hnin p hp) he.symm
    simp only [List.length_cons, List.append_assoc, parsePairsF]
    rw [parse_ok cr k hk fuel _ (by omega)]
    dsimp only
    rw [parse_ok cr w hw fuel _ (by omega)]
    dsimp only
    rw [jsMapSet_append
      (keyNotIn_iff.mp (hfresh (k, w) (List.mem_cons_self _ _)))]
    rw [parsePairs_ok cr ps hps (acc ++ [(k, w)]) hfr fuel rest (by omega)]
    simp

end

/-- C2 (amended): decoding an encoded value reproduces it for every value
built from non-empty CRLF-free ASCII strings, integers, `null`, arrays and
distinct-key maps of such values — for any `COMMON_RESP` allow-list. -/
theorem C2_roundtrip_amended (cr : List Str) (v : JSValue)
    (hv : good v = true) : deserialiser (serialise cr v) = .ok v := by
  have hfilter : ((respLines cr v ++ [[]]).filter (· ≠ [])) = respToks cr v := by
    simp [respToks, List.filter_append]
  have hparse := parse_ok cr v hv ((respToks cr v).length + 1) [] (by omega)
  rw [List.append_nil] at hparse
  unfold deserialiser
  rw [serialise_lines cr v,
    splitCRLF_joinCRLF (respLines cr v) (respLines_crlfFree cr v hv), hfilter]
  dsimp only
  rw [hparse]

/-- C2 witness: a concrete nested value (bulk and simple strings, integers,
null, an array and a map) decodes back to itself. -/
theorem C2_roundtrip_amended_witness :
    good (JSValue.arr [.str "Foo".toList, .str "OK".toList, .int 1000,
        .int (-7), .null, .map [(.str "a".toList, .int 2),
          (.str "b".toList, .null)], .arr []]) = true ∧
    deserialiser (serialise ["OK".toList]
        (JSValue.arr [.str "Foo".toList, .str "OK".toList, .int 1000,
          .int (-7), .null, .map [(.str "a".toList, .int 2),
            (.str "b".toList, .null)], .arr []]))
      = .ok (JSValue.arr [.str "Foo".toList, .str "OK".toList, .int 1000,
          .int (-7), .null, .map [(.str "a".toList, .int 2),
            (.str "b".toList, .null)], .arr []]) :=
  ⟨rfl, C2_roundtrip_amended ["OK".toList] _ rfl⟩

/-- C2 counterexample: the claim fails as stated — a boolean is serialised
as the bare literal `t`/`f` without the `#` type tag, so decoding the
encoding of `true` is a decode error, not `true`. -/
theorem C2_bool_counterexample :
    serialise [] (JSValue.bool true) = "t\r\n".toList ∧
    deserialiser (serialise [] (JSValue.bool true)) =
      .error ("Unknown RESP type: t".toList) ∧
    deserialiser (serialise [] (JSValue.bool true)) ≠
      .ok (JSValue.bool true) := by
  refine ⟨rfl, rfl, ?_⟩
  intro h
  rw [show deserialiser (serialise [] (JSValue.bool true)) =
    Except.error ("Unknown RESP type: t".toList) from rfl] at h
  exact Except.noConfusion h

/-- C7: an `Error` whose message is shorter than 10 characters collapses to
the fixed generic simple error frame; a message of 10 or more characters is
encoded as a Bulk Error frame carrying the full original message. -/
theorem C7_error_encoding (cr : List Str) (msg : Str) :
    (msg.length < 10 →
      serialise cr (JSValue.err msg) = "-Unknown error\r\n".toList) ∧
    (10 ≤ msg.length →
      serialise cr (JSValue.err msg) = serialiseBulkError msg) := by
  constructor
  · intro h
    show serialiseError msg = _
    unfold serialiseError
    rw [if_pos h]
    rfl
  · intro h
    show serialiseError msg = _
    unfold serialiseError
    rw [if_neg (by omega)]

/-- C7 witness: the two scenario inputs from the specification. -/
theorem C7_error_encoding_witness :
    ("Short".toList.length < 10 ∧
      serialise [] (JSValue.err "Short".toList) = "-Unknown error\r\n".toList) ∧
    (10 ≤ "This is a long error message".toList.length ∧
      serialise [] (JSValue.err "This is a long error message".toList) =
        serialiseBulkError "This is a long error message".toList) :=
  ⟨⟨by decide, (C7_error_encoding [] "Short".toList).1 (by decide)⟩,
    ⟨by decide,
      (C7_error_encoding [] "This is a long error message".toList).2
        (by decide)⟩⟩

/-! ### §2 lemmas: the expiring hash table -/

/-- `lookup` misses exactly when the key is not among the resident keys. -/
theorem hm_lookup_eq_none_iff {κ ν : Type} [DecidableEq κ]
    (m : HMap κ ν) (k : κ) :
    HMap.lookup m k = none ↔ k ∉ HMap.keys m := by
  induction m with
  | nil => simp [HMap.lookup, HMap.keys]
  | cons hd tl ih =>
    obtain ⟨k', v, e⟩ := hd
    by_cases h : k' = k
    · subst h
      simp [HMap.lookup, HMap.keys]
    · rw [show HMap.lookup ((k', v, e) :: tl) k =
        if k' = k then some (v, e) else HMap.lookup tl k from rfl,
        if_neg h,
        show HMap.keys ((k', v, e) :: tl) = k' :: HMap.keys tl from rfl]
      constructor
      · intro hn hmem
        rcases List.mem_cons.mp hmem with h1 | h2
        · exact h h1.symm
        · exact (ih.mp hn) h2
      · intro hn
        exact ih.mpr (fun h2 => hn (List.mem_cons.mpr (Or.inr h2)))

/-- `has` is resident-key membership. -/
theorem hm_has_iff_mem_keys {κ ν : Type} [DecidableEq κ]
    (m : HMap κ ν) (k : κ) :
    HMap.has m k = true ↔ k ∈ HMap.keys m := by
  constructor
  · intro h
    by_contra hk
    rw [show HMap.has m k = (HMap.lookup m k).isSome from rfl,
      (hm_lookup_eq_none_iff m k).mpr hk] at h
    exact Bool.noConfusion h
  · intro hk
    show (HMap.lookup m k).isSome = true
    cases hl : HMap.lookup m k with
    | none => exact absurd ((hm_lookup_eq_none_iff m k).mp hl) (not_not.mpr hk)
    | some p => rfl

/-- After `setex m k v ex`, looking up `k` finds `v` with the verbatim
expiry `ex`. -/
theorem hm_lookup_setex_self {κ ν : Type} [DecidableEq κ]
    (m : HMap κ ν) (k : κ) (v : ν) (ex : Int) :
    HMap.lookup (HMap.setex m k v ex) k = some (v, some ex) := by
  induction m with
  | nil => simp [HMap.setex, HMap.lookup]
  | cons hd tl ih =>
    obtain ⟨k', v', e⟩ := hd
    by_cases h : k' = k
    · subst h
      simp [HMap.setex, HMap.lookup]
    · simp only [HMap.setex, if_neg h]
      rw [show HMap.lookup ((k', v', e) :: HMap.setex tl k v ex) k =
        if k' = k then some (v', e)
        else HMap.lookup (HMap.setex tl k v ex) k from rfl, if_neg h]
      exact ih

/-- `setex` leaves every other key's slot unchanged. -/
theorem hm_lookup_setex_ne {κ ν : Type} [DecidableEq κ]
    (m : HMap κ ν) (k k2 : κ) (v : ν) (ex : Int) (h : k2 ≠ k) :
    HMap.lookup (HMap.setex m k v ex) k2 = HMap.lookup m k2 := by
  induction m with
  | nil =>
    show HMap.lookup [(k, v, some ex)] k2 = HMap.lookup [] k2
    rw [show HMap.lookup [(k, v, some ex)] k2 =
      if k = k2 then some (v, some ex)
      else HMap.lookup ([] : HMap κ ν) k2 from rfl,
      if_neg (fun hh : k = k2 => h hh.symm)]
  | cons hd tl ih =>
    obtain ⟨k', v', e⟩ := hd
    by_cases hk : k' = k
    · subst hk
      show HMap.lookup (if k' = k' then (k', v, some ex) :: tl
        else (k', v', e) :: HMap.setex tl k' v ex) k2 = _
      rw [if_pos rfl]
      rw [show HMap.lookup ((k', v, some ex) :: tl) k2 =
          if k' = k2 then some (v, some ex)
          else HMap.lookup tl k2 from rfl,
        show HMap.lookup ((k', v', e) :: tl) k2 =
          if k' = k2 then some (v', e) else HMap.lookup tl k2 from rfl,
        if_neg (fun hh : k' = k2 => h (hh ▸ rfl)),
        if_neg (fun hh : k' = k2 => h (hh ▸ rfl))]
    · simp only [HMap.setex, if_neg hk]
      rw [show HMap.lookup ((k', v', e) :: HMap.setex tl k v ex) k2 =
          if k' = k2 then some (v', e)
          else HMap.lookup (HMap.setex tl k v ex) k2 from rfl,
        show HMap.lookup ((k', v', e) :: tl) k2 =
          if k' = k2 then some (v', e) else HMap.lookup tl k2 from rfl]
      by_cases hk2 : k' = k2
      · rw [if_pos hk2, if_pos hk2]
      · rw [if_neg hk2, if_neg hk2]
        exact ih

/-- The keys after `setex`: unchanged when `k` was resident, appended
otherwise. -/
theorem hm_keys_setex {κ ν : Type} [DecidableEq κ]
    (m : HMap κ ν) (k : κ) (v : ν) (ex : Int) :
    HMap.keys (HMap.setex m k v ex) =
      if k ∈ HMap.keys m then HMap.keys m else HMap.keys m ++ [k] := by
  induction m with
  | nil => simp [HMap.setex, HMap.keys]
  | cons hd tl ih =>
    obtain ⟨k', v', e⟩ := hd
    by_cases h : k' = k
    · subst h
      simp [HMap.setex, HMap.keys]
    · simp only [HMap.setex, if_neg h]
      rw [show HMap.keys ((k', v', e) :: HMap.setex tl k v ex) =
          k' :: HMap.keys (HMap.setex tl k v ex) from rfl,
        show HMap.keys ((k', v', e) :: tl) = k' :: HMap.keys tl from rfl, ih]
      by_cases hm : k ∈ HMap.keys tl
      · rw [if_pos hm, if_pos (List.mem_cons.mpr (Or.inr hm))]
      · rw [if_neg hm,
          if_neg (fun hc => by
            rcases List.mem_cons.mp hc with h1 | h2
            · exact h h1.symm
            · exact hm h2)]
        rfl

/-- `setex` preserves distinctness of the resident keys. -/
theorem hm_keys_setex_nodup {κ ν : Type} [DecidableEq κ]
    (m : HMap κ ν) (k : κ) (v : ν) (ex : Int)
    (h : (HMap.keys m).Nodup) :
    (HMap.keys (HMap.setex m k v ex)).Nodup := by
  rw [hm_keys_setex]
  by_cases hm : k ∈ HMap.keys m
  · rw [if_pos hm]; exact h
  · rw [if_neg hm, List.nodup_append]
    exact ⟨h, List.nodup_singleton k,
      fun a ha hk2 => hm (by rwa [List.mem_singleton.mp hk2] at ha)⟩

/-- With distinct keys, physically erasing `k` makes its lookup miss. -/
theorem hm_lookup_eraseKey_self {κ ν : Type} [DecidableEq κ] :
    ∀ (m : HMap κ ν) (k : κ), (HMap.keys m).Nodup →
      HMap.lookup (HMap.eraseKey m k) k = none
  | [], _, _ => rfl
  | (k', v, e) :: tl, k, h => by
    rw [show HMap.keys ((k', v, e) :: tl) = k' :: HMap.keys tl from rfl] at h
    by_cases hk : k' = k
    · subst hk
      rw [show HMap.eraseKey ((k', v, e) :: tl) k' =
        if k' = k' then tl else (k', v, e) :: HMap.eraseKey tl k' from rfl,
        if_pos rfl]
      exact (hm_lookup_eq_none_iff tl k').mpr (List.nodup_cons.mp h).1
    · rw [show HMap.eraseKey ((k', v, e) :: tl) k =
        if k' = k then tl else (k', v, e) :: HMap.eraseKey tl k from rfl,
        if_neg hk,
        show HMap.lookup ((k', v, e) :: HMap.eraseKey tl k) k =
          if k' = k then some (v, e)
          else HMap.lookup (HMap.eraseKey tl k) k from rfl,
        if_neg hk]
      exact hm_lookup_eraseKey_self tl k (List.nodup_cons.mp h).2

/-- For a missing key `get` returns absent and leaves the store alone;
for a resident entry whose truthy expiry lies strictly in the past it
physically deletes the slot and returns absent. -/
theorem hm_get_miss_and_sweep {κ ν : Type} [DecidableEq κ]
    (m : HMap κ ν) (k : κ) (now : Int) :
    (HMap.lookup m k = none → HMap.get m k now = (none, m)) ∧
    (∀ (w : ν) (e : Int), HMap.lookup m k = some (w, some e) → e ≠ 0 →
      e < now → HMap.get m k now = (none, HMap.eraseKey m k)) := by
  constructor
  · intro h
    unfold HMap.get
    rw [h]
  · intro w e h hne hlt
    unfold HMap.get
    rw [h]
    dsimp only
    rw [if_pos ⟨hne, hlt⟩]

/-- A slot whose stored expiry is the falsy number `0` is immortal: `get`
returns the value and performs no sweep, at every clock. -/
theorem hm_get_zero_expiry {κ ν : Type} [DecidableEq κ]
    (m : HMap κ ν) (k : κ) (now : Int) (v : ν)
    (h : HMap.lookup m k = some (v, some 0)) :
    HMap.get m k now = (some v, m) := by
  unfold HMap.get
  rw [h]
  dsimp only
  rw [if_neg (fun hc => hc.1 rfl)]

/-- C3: refuted at the claim's own scenario — `setex k v 0` stores the
falsy expiry `0`, which `get`'s `item.ex && item.ex < Date.now()` guard
skips, so at the later clock 9 `get` still returns the stored value and
performs no sweep, and a `has` issued on the post-`get` store still
reports the key: the claim requires absent, swept and `false`. -/
theorem C3_setex_zero_never_expires :
    (HMap.get (HMap.setex ([] : HMap Str Str) "k".toList "v".toList 0)
        "k".toList 9).1 = some "v".toList ∧
    (HMap.get (HMap.setex ([] : HMap Str Str) "k".toList "v".toList 0)
        "k".toList 9).2 =
      HMap.setex ([] : HMap Str Str) "k".toList "v".toList 0 ∧
    HMap.has (HMap.get (HMap.setex ([] : HMap Str Str) "k".toList
        "v".toList 0) "k".toList 9).2 "k".toList = true :=
  ⟨rfl, rfl, rfl⟩

/-- C4 (amended): `setex key value ex` stores its third argument verbatim
as the absolute expiry (`map.set(key, { value, ex })`; there is no
`now + ttlSeconds*1000` conversion anywhere), inserting or overwriting in
place, and leaves every other key's slot untouched. -/
theorem C4_setex_stores_ex_verbatim {κ ν : Type} [DecidableEq κ]
    (m : HMap κ ν) (k k2 : κ) (v : ν) (ex : Int) :
    HMap.lookup (HMap.setex m k v ex) k = some (v, some ex) ∧
    (k2 ≠ k → HMap.lookup (HMap.setex m k v ex) k2 = HMap.lookup m k2) :=
  ⟨hm_lookup_setex_self m k v ex,
   fun h => hm_lookup_setex_ne m k k2 v ex h⟩

/-- C4 witness: the repository's own test vector
`setex("key1", "value1", 6000)` — the stored expiry is the literal 6000;
another key is untouched. -/
theorem C4_setex_stores_ex_verbatim_witness :
    HMap.lookup (HMap.setex ([] : HMap Str Str) "key1".toList
        "value1".toList 6000) "key1".toList =
      some ("value1".toList, some 6000) ∧
    ("x".toList ≠ "key1".toList →
      HMap.lookup (HMap.setex ([] : HMap Str Str) "key1".toList
          "value1".toList 6000) "x".toList =
        HMap.lookup ([] : HMap Str Str) "x".toList) :=
  C4_setex_stores_ex_verbatim [] "key1".toList "x".toList
    "value1".toList 6000

/-- C4 counterexample to the claimed formula: at the repository's test
vector (`setex` with 6000 at mocked clock 1000) the stored slot carries
expiry 6000, which is not the claimed `now + ttlSeconds*1000 =
1000 + 6000*1000`. -/
theorem C4_setex_counterexample :
    HMap.lookup (HMap.setex ([] : HMap Str Str) "key1".toList
        "value1".toList 6000) "key1".toList =
      some ("value1".toList, some 6000) ∧
    (some ("value1".toList, some (6000 : Int)) :
        Option (Str × Option Int)) ≠
      some ("value1".toList, some ((1000 : Int) + 6000 * 1000)) :=
  ⟨rfl, by decide⟩

/-- C5 (amended): for a resident key, `ttl` returns `-1` when the stored
expiry is falsy (`null`, or the number `0`), and otherwise
`item.ex - Date.now()` — the remaining time in milliseconds, with no
division by 1000, negative or stale for an expired, not-yet-swept entry;
for an absent key the source throws a `TypeError` (modelled `none`). -/
theorem C5_ttl_milliseconds {κ ν : Type} [DecidableEq κ]
    (m : HMap κ ν) (k : κ) (now : Int) :
    (HMap.lookup m k = none → HMap.ttl m k now = none) ∧
    (∀ v : ν, HMap.lookup m k = some (v, none) →
      HMap.ttl m k now = some (-1)) ∧
    (∀ v : ν, HMap.lookup m k = some (v, some 0) →
      HMap.ttl m k now = some (-1)) ∧
    (∀ (v : ν) (e : Int), HMap.lookup m k = some (v, some e) → e ≠ 0 →
      HMap.ttl m k now = some (e - now)) := by
  refine ⟨?_, ?_, ?_, ?_⟩
  · intro h
    unfold HMap.ttl
    rw [h]
  · intro v h
    unfold HMap.ttl
    rw [h]
  · intro v h
    unfold HMap.ttl
    rw [h]
    dsimp only
    rw [if_pos rfl]
  · intro v e h he
    unfold HMap.ttl
    rw [h]
    dsimp only
    rw [if_neg he]

/-- C5 witness: the repository's own test vector — expiry 6000 at mocked
clock 1000 gives `ttl = 5000` milliseconds. -/
theorem C5_ttl_milliseconds_witness :
    (HMap.lookup (HMap.setex ([] : HMap Str Str) "key1".toList
          "value1".toList 6000) "key1".toList = none →
      HMap.ttl (HMap.setex ([] : HMap Str Str) "key1".toList
          "value1".toList 6000) "key1".toList 1000 = none) ∧
    (∀ v : Str,
      HMap.lookup (HMap.setex ([] : HMap Str Str) "key1".toList
          "value1".toList 6000) "key1".toList = some (v, none) →
      HMap.ttl (HMap.setex ([] : HMap Str Str) "key1".toList
          "value1".toList 6000) "key1".toList 1000 = some (-1)) ∧
    (∀ v : Str,
      HMap.lookup (HMap.setex ([] : HMap Str Str) "key1".toList
          "value1".toList 6000) "key1".toList = some (v, some 0) →
      HMap.ttl (HMap.setex ([] : HMap Str Str) "key1".toList
          "value1".toList 6000) "key1".toList 1000 = some (-1)) ∧
    (∀ (v : Str) (e : Int),
      HMap.lookup (HMap.setex ([] : HMap Str Str) "key1".toList
          "value1".toList 6000) "key1".toList = some (v, some e) → e ≠ 0 →
      HMap.ttl (HMap.setex ([] : HMap Str Str) "key1".toList
          "value1".toList 6000) "key1".toList 1000 = some (e - 1000)) :=
  C5_ttl_milliseconds (HMap.setex ([] : HMap Str Str) "key1".toList
    "value1".toList 6000) "key1".toList 1000

/-- C5 counterexample to the claimed seconds conversion: at the
repository's test vector the result is 5000 (milliseconds), not
`(6000 - 1000) / 1000 = 5` seconds. -/
theorem C5_ttl_counterexample :
    HMap.ttl (HMap.setex ([] : HMap Str Str) "key1".toList
        "value1".toList 6000) "key1".toList 1000 = some 5000 ∧
    some (5000 : Int) ≠ some (((6000 : Int) - 1000) / 1000) :=
  ⟨by decide, by decide⟩

/-- C6: `has` is a pure residency check (`map.has`) that never consults
the expiry; consequently an entry whose truthy expiry lies strictly in
the past shows `has = true` while `get` at the same instant returns
absent. -/
theorem C6_has_skips_expiry {κ ν : Type} [DecidableEq κ]
    (m : HMap κ ν) (k : κ) (now : Int) :
    (HMap.has m k = true ↔ k ∈ HMap.keys m) ∧
    (∀ (v : ν) (e : Int), HMap.lookup m k = some (v, some e) → e ≠ 0 →
      e < now → HMap.has m k = true ∧ (HMap.get m k now).1 = none) := by
  refine ⟨hm_has_iff_mem_keys m k, ?_⟩
  intro v e h hne hlt
  constructor
  · show (HMap.lookup m k).isSome = true
    rw [h]
    rfl
  · exact congrArg Prod.fst
      ((hm_get_miss_and_sweep m k now).2 v e h hne hlt)

/-- C6 witness: key 1 with truthy expiry 3, observed at clock 5:
`has = true` while `get` is absent. -/
theorem C6_has_skips_expiry_witness :
    (HMap.has ([(1, 10, some 3)] : HMap Nat Nat) 1 = true ↔
      1 ∈ HMap.keys ([(1, 10, some 3)] : HMap Nat Nat)) ∧
    (∀ (v : Nat) (e : Int),
      HMap.lookup ([(1, 10, some 3)] : HMap Nat Nat) 1 = some (v, some e) →
        e ≠ 0 → e < 5 →
      HMap.has ([(1, 10, some 3)] : HMap Nat Nat) 1 = true ∧
        (HMap.get ([(1, 10, some 3)] : HMap Nat Nat) 1 5).1 = none) :=
  C6_has_skips_expiry [(1, 10, some 3)] 1 5

/-! ### §3 lemmas: set algebra -/

/-- Set membership (`has`) is membership in the element list. -/
theorem js_has_iff_mem {α : Type} [DecidableEq α] (s : JsSet α) (v : α) :
    s.has v = true ↔ v ∈ s.toArray :=
  hm_has_iff_mem_keys s.map v

/-- `set` on a key not yet resident appends a never-expiring slot. -/
theorem hm_set_of_not_mem {κ ν : Type} [DecidableEq κ] :
    ∀ (m : HMap κ ν) (k : κ) (v : ν), k ∉ HMap.keys m →
      HMap.set m k v = m ++ [(k, v, none)]
  | [], _, _, _ => rfl
  | (k', v', e) :: tl, k, v, h => by
    rw [show HMap.keys ((k', v', e) :: tl) = k' :: HMap.keys tl from rfl] at h
    have hk : ¬(k' = k) := fun hh => h (List.mem_cons.mpr (Or.inl hh.symm))
    show (if k' = k then (k, v, none) :: tl
      else (k', v', e) :: HMap.set tl k v) = _
    rw [if_neg hk, hm_set_of_not_mem tl k v
      (fun h2 => h (List.mem_cons.mpr (Or.inr h2)))]
    rfl

/-- `add` on an already-present value returns the set unchanged. -/
theorem js_add_of_has {α : Type} [DecidableEq α] (s : JsSet α) (v : α)
    (h : s.has v = true) :
    (s.add v).1 = s := by
  show (if s.map.has v = true then ((s, false) : JsSet α × Bool)
    else (⟨s.map.set v true, s._size + 1⟩, true)).1 = _
  rw [if_pos (show s.map.has v = true from h)]

/-- `add` on an absent value installs the member and bumps the counter. -/
theorem js_add_of_not_has {α : Type} [DecidableEq α] (s : JsSet α) (v : α)
    (h : s.has v = false) :
    (s.add v).1 = ⟨s.map.set v true, s._size + 1⟩ := by
  show (if s.map.has v = true then ((s, false) : JsSet α × Bool)
    else (⟨s.map.set v true, s._size + 1⟩, true)).1 = _
  rw [if_neg (fun hh => Bool.noConfusion
    ((show s.map.has v = false from h).symm.trans hh))]

/-- The freshly constructed set is well formed. -/
theorem js_wf_empty {α : Type} [DecidableEq α] : (JsSet.empty : JsSet α).WF :=
  ⟨List.nodup_nil, rfl, fun _ h => absurd h (List.not_mem_nil _)⟩

/-- Adding an absent value appends it to the element list and preserves
well-formedness. -/
theorem js_add_toArray {α : Type} [DecidableEq α] (s : JsSet α) (v : α)
    (h : s.has v = false) (hwf : s.WF) :
    ((s.add v).1).toArray = s.toArray ++ [v] ∧ ((s.add v).1).WF := by
  obtain ⟨hnd, hsz, hexp⟩ := hwf
  have hmem : v ∉ s.toArray := fun hm =>
    Bool.noConfusion (h.symm.trans ((js_has_iff_mem s v).mpr hm))
  have hset : s.map.set v true = s.map ++ [(v, true, none)] :=
    hm_set_of_not_mem s.map v true hmem
  have harr : ((s.add v).1).toArray = s.toArray ++ [v] := by
    rw [js_add_of_not_has s v h]
    show HMap.keys (s.map.set v true) = _
    rw [hset]
    show (s.map ++ [(v, true, none)]).map
        (fun q : α × Bool × Option Int => q.1)
      = s.map.map (fun q : α × Bool × Option Int => q.1) ++ [v]
    rw [List.map_append]
    rfl
  refine ⟨harr, ?_, ?_, ?_⟩
  · rw [harr, List.nodup_append]
    exact ⟨hnd, List.nodup_singleton v,
      fun a ha hk => hmem (by rwa [List.mem_singleton.mp hk] at ha)⟩
  · show ((s.add v).1)._size = ((s.add v).1).map.length
    rw [js_add_of_not_has s v h]
    show s._size + 1 = (s.map.set v true).length
    rw [hset, List.length_append, hsz]
    rfl
  · intro e he
    rw [js_add_of_not_has s v h] at he
    rw [show (⟨s.map.set v true, s._size + 1⟩ : JsSet α).map
      = s.map.set v true from rfl, hset] at he
    rcases List.mem_append.mp he with h1 | h2
    · exact hexp e h1
    · rw [List.mem_singleton.mp h2]

/-- `add` preserves well-formedness and inserts the value into the element
set. -/
theorem js_add_spec {α : Type} [DecidableEq α] (s : JsSet α) (v : α)
    (hwf : s.WF) :
    ((s.add v).1).WF ∧
    ((s.add v).1).toArray.toFinset = insert v s.toArray.toFinset := by
  by_cases h : s.has v = true
  · rw [js_add_of_has s v h]
    exact ⟨hwf, (Finset.insert_eq_self.mpr
      (List.mem_toFinset.mpr ((js_has_iff_mem s v).mp h))).symm⟩
  · have hf : s.has v = false := by
      cases hh : s.has v
      · rfl
      · exact absurd hh h
    obtain ⟨harr, hwf2⟩ := js_add_toArray s v hf hwf
    refine ⟨hwf2, ?_⟩
    rw [harr, List.toFinset_append,
      show ([v] : List α).toFinset = {v} from by simp,
      Finset.union_comm, ← Finset.insert_eq]

/-- Iterated `add` (the `union` loop body) accumulates the union of the
element sets and preserves well-formedness. -/
theorem js_addAll_spec {α : Type} [DecidableEq α] :
    ∀ (l : List α) (s : JsSet α), s.WF →
      (s.addAll l).WF ∧
      (s.addAll l).toArray.toFinset = s.toArray.toFinset ∪ l.toFinset
  | [], s, hwf => ⟨hwf, by show s.toArray.toFinset = _; simp⟩
  | v :: vs, s, hwf => by
    have hstep := js_add_spec s v hwf
    have ih := js_addAll_spec vs (s.add v).1 hstep.1
    refine ⟨ih.1, ?_⟩
    show (((s.add v).1).addAll vs).toArray.toFinset = _
    rw [ih.2, hstep.2, Finset.insert_union, List.toFinset_cons,
      Finset.union_insert]

/-- `union` is well formed and realises the union of the element sets. -/
theorem js_union_spec {α : Type} [DecidableEq α] (a b : JsSet α) :
    (a.union b).WF ∧
    (a.union b).toArray.toFinset =
      a.toArray.toFinset ∪ b.toArray.toFinset := by
  have h1 := js_addAll_spec a.toArray JsSet.empty js_wf_empty
  have h2 := js_addAll_spec b.toArray (JsSet.empty.addAll a.toArray) h1.1
  refine ⟨h2.1, ?_⟩
  show ((JsSet.empty.addAll a.toArray).addAll b.toArray).toArray.toFinset = _
  rw [h2.2, h1.2, show (JsSet.empty : JsSet α).toArray = ([] : List α)
    from rfl]
  simp

/-- For a well-formed set the size counter is the cardinality of the
element set. -/
theorem js_size_eq_card {α : Type} [DecidableEq α] (s : JsSet α)
    (hwf : s.WF) :
    s.size = s.toArray.toFinset.card := by
  obtain ⟨hnd, hsz, _⟩ := hwf
  rw [List.toFinset_card_of_nodup hnd]
  show s._size = s.toArray.length
  rw [hsz]
  show s.map.length = (s.map.map (·.1)).length
  rw [List.length_map]

/-- The guarded-`add` fold (the `intersection`/`difference` loop body)
computes a filtered element list and preserves well-formedness. -/
theorem js_foldl_filter {α : Type} [DecidableEq α] (p : α → Bool) :
    ∀ (l : List α) (acc : JsSet α), acc.WF → l.Nodup →
      (∀ x ∈ l, x ∉ acc.toArray) →
      (l.foldl (fun acc v => if p v then (acc.add v).1 else acc) acc).WF ∧
      (l.foldl (fun acc v => if p v then (acc.add v).1 else acc) acc).toArray
        = acc.toArray ++ l.filter p
  | [], acc, hwf, _, _ => ⟨hwf, by simp⟩
  | v :: vs, acc, hwf, hnd, hnotin => by
    have hvs : vs.Nodup := (List.nodup_cons.mp hnd).2
    have hvacc : v ∉ acc.toArray := hnotin v (List.mem_cons_self v vs)
    rw [List.foldl_cons]
    by_cases hp : p v = true
    · rw [if_pos hp]
      have hf : acc.has v = false := by
        cases hh : acc.has v
        · rfl
        · exact absurd ((js_has_iff_mem acc v).mp hh) hvacc
      obtain ⟨harr, hwf2⟩ := js_add_toArray acc v hf hwf
      have hcond : ∀ x ∈ vs, x ∉ ((acc.add v).1).toArray := by
        intro x hx hmem
        rw [harr] at hmem
        rcases List.mem_append.mp hmem with h1 | h2
        · exact hnotin x (List.mem_cons.mpr (Or.inr hx)) h1
        · exact (List.nodup_cons.mp hnd).1 ((List.mem_singleton.mp h2) ▸ hx)
      have ih := js_foldl_filter p vs (acc.add v).1 hwf2 hvs hcond
      refine ⟨ih.1, ?_⟩
      rw [ih.2, harr, List.filter_cons_of_pos hp, List.append_assoc]
      rfl
    · rw [if_neg hp]
      have ih := js_foldl_filter p vs acc hwf hvs
        (fun x hx => hnotin x (List.mem_cons.mpr (Or.inr hx)))
      refine ⟨ih.1, ?_⟩
      rw [ih.2, List.filter_cons_of_neg hp]

/-- `intersection` iterates the smaller operand and keeps the elements the
larger contains; its element list is the corresponding filter. -/
theorem js_intersection_toArray {α : Type} [DecidableEq α] (a b : JsSet α)
    (ha : a.WF) (hb : b.WF) :
    (a.intersection b).WF ∧
    (a.intersection b).toArray =
      (if a.size < b.size then a.toArray.filter b.has
       else b.toArray.filter a.has) := by
  unfold JsSet.intersection
  by_cases hs : a.size < b.size
  · rw [if_pos hs, if_pos hs]
    dsimp only
    have hff := js_foldl_filter (fun v => b.has v) a.toArray JsSet.empty
      js_wf_empty ha.1 (fun x _ hmem => absurd hmem (List.not_mem_nil x))
    exact ⟨hff.1, hff.2⟩
  · rw [if_neg hs, if_neg hs]
    dsimp only
    have hff := js_foldl_filter (fun v => a.has v) b.toArray JsSet.empty
      js_wf_empty hb.1 (fun x _ hmem => absurd hmem (List.not_mem_nil x))
    exact ⟨hff.1, hff.2⟩

/-- `difference` keeps exactly the elements the other set lacks. -/
theorem js_difference_toArray {α : Type} [DecidableEq α] (a b : JsSet α)
    (ha : a.WF) :
    (a.difference b).WF ∧
    (a.difference b).toArray = a.toArray.filter (fun v => !b.has v) := by
  have hff := js_foldl_filter (fun v => !b.has v) a.toArray JsSet.empty
    js_wf_empty ha.1 (fun x _ hmem => absurd hmem (List.not_mem_nil x))
  exact ⟨hff.1, hff.2⟩

/-- The element set of `intersection` is the intersection of the element
sets. -/
theorem js_inter_toFinset {α : Type} [DecidableEq α] (a b : JsSet α)
    (ha : a.WF) (hb : b.WF) :
    (a.intersection b).toArray.toFinset =
      a.toArray.toFinset ∩ b.toArray.toFinset := by
  obtain ⟨hiwf, hiarr⟩ := js_intersection_toArray a b ha hb
  rw [hiarr]
  by_cases hs : a.size < b.size
  · rw [if_pos hs, List.toFinset_filter,
      Finset.filter_congr (fun x _ => Iff.trans (js_has_iff_mem b x)
        List.mem_toFinset.symm),
      Finset.filter_mem_eq_inter]
  · rw [if_neg hs, List.toFinset_filter,
      Finset.filter_congr (fun x _ => Iff.trans (js_has_iff_mem a x)
        List.mem_toFinset.symm),
      Finset.filter_mem_eq_inter, Finset.inter_comm]

/-- `(A \ B) ∩ B` has an empty element list and size 0. -/
theorem js_diff_inter_empty {α : Type} [DecidableEq α] (a b : JsSet α)
    (ha : a.WF) (hb : b.WF) :
    ((a.difference b).intersection b).toArray = [] ∧
    ((a.difference b).intersection b).size = 0 := by
  obtain ⟨hdwf, hdarr⟩ := js_difference_toArray a b ha
  obtain ⟨hiwf, hiarr⟩ := js_intersection_toArray (a.difference b) b hdwf hb
  have harr : ((a.difference b).intersection b).toArray = [] := by
    rw [hiarr]
    by_cases hs : (a.difference b).size < b.size
    · rw [if_pos hs, List.filter_eq_nil_iff]
      intro x hx hbx
      rw [hdarr] at hx
      have hneg := List.of_mem_filter hx
      rw [hbx] at hneg
      exact Bool.noConfusion hneg
    · rw [if_neg hs, List.filter_eq_nil_iff]
      intro x hx hdx
      have hmem := (js_has_iff_mem (a.difference b) x).mp hdx
      rw [hdarr] at hmem
      have hneg := List.of_mem_filter hmem
      rw [(js_has_iff_mem b x).mpr hx] at hneg
      exact Bool.noConfusion hneg
  refine ⟨harr, ?_⟩
  obtain ⟨hnd2, hsz2, _⟩ := hiwf
  have hlen : ((a.difference b).intersection b).toArray.length
      = ((a.difference b).intersection b).map.length := by
    show (((a.difference b).intersection b).map.map (·.1)).length = _
    rw [List.length_map]
  show ((a.difference b).intersection b)._size = 0
  rw [hsz2, ← hlen, harr]
  rfl

/-- A well-formed set is a subset of its union with any other set. -/
theorem js_subset_union {α : Type} [DecidableEq α] (a b : JsSet α)
    (ha : a.WF) : a.isSubsetOf (a.union b) = true := by
  have hu := js_union_spec a b
  have hle : a.size ≤ (a.union b).size := by
    rw [js_size_eq_card a ha, js_size_eq_card _ hu.1, hu.2]
    exact Finset.card_le_card Finset.subset_union_left
  unfold JsSet.isSubsetOf
  rw [if_neg (Nat.not_lt.mpr hle), List.all_eq_true]
  intro x hx
  show (a.union b).has x = true
  refine (js_has_iff_mem _ x).mpr (List.mem_toFinset.mp ?_)
  rw [hu.2]
  exact Finset.mem_union_left _ (List.mem_toFinset.mpr hx)

/-- C8: for well-formed sets `A` and `B`,
`|A.union(B)| = |A| + |B| - |A.intersection(B)|`;
`A.difference(B).intersection(B)` is the empty set (empty element list,
size 0); and `A.isSubsetOf(A.union(B))` returns `true`. -/
theorem C8_set_algebra {α : Type} [DecidableEq α] (a b : JsSet α)
    (ha : a.WF) (hb : b.WF) :
    (a.union b).size = a.size + b.size - (a.intersection b).size ∧
    ((a.difference b).intersection b).toArray = [] ∧
    ((a.difference b).intersection b).size = 0 ∧
    a.isSubsetOf (a.union b) = true := by
  obtain ⟨hde, hds⟩ := js_diff_inter_empty a b ha hb
  refine ⟨?_, hde, hds, js_subset_union a b ha⟩
  have hu := js_union_spec a b
  have hcard := Finset.card_union_add_card_inter a.toArray.toFinset
    b.toArray.toFinset
  rw [js_size_eq_card _ hu.1, hu.2, js_size_eq_card a ha,
    js_size_eq_card b hb,
    js_size_eq_card _ (js_intersection_toArray a b ha hb).1,
    js_inter_toFinset a b ha hb]
  omega

/-- C8 witness: `A = {1,2,3}`, `B = {2,3,4}` over `Nat`: union size
`4 = 3 + 3 - 2`, `(A \ B) ∩ B` empty, and `A ⊆ A ∪ B`. -/
theorem C8_set_algebra_witness :
    ((JsSet.empty.addAll [1, 2, 3] : JsSet Nat).WF ∧
      (JsSet.empty.addAll [2, 3, 4] : JsSet Nat).WF) ∧
    (((JsSet.empty.addAll [1, 2, 3] : JsSet Nat).union
          (JsSet.empty.addAll [2, 3, 4])).size =
        (JsSet.empty.addAll [1, 2, 3] : JsSet Nat).size +
          (JsSet.empty.addAll [2, 3, 4] : JsSet Nat).size -
          ((JsSet.empty.addAll [1, 2, 3] : JsSet Nat).intersection
            (JsSet.empty.addAll [2, 3, 4])).size ∧
      (((JsSet.empty.addAll [1, 2, 3] : JsSet Nat).difference
            (JsSet.empty.addAll [2, 3, 4])).intersection
          (JsSet.empty.addAll [2, 3, 4])).toArray = [] ∧
      (((JsSet.empty.addAll [1, 2, 3] : JsSet Nat).difference
            (JsSet.empty.addAll [2, 3, 4])).intersection
          (JsSet.empty.addAll [2, 3, 4])).size = 0 ∧
      (JsSet.empty.addAll [1, 2, 3] : JsSet Nat).isSubsetOf
          ((JsSet.empty.addAll [1, 2, 3] : JsSet Nat).union
            (JsSet.empty.addAll [2, 3, 4])) = true) :=
  ⟨⟨by unfold JsSet.WF; decide, by unfold JsSet.WF; decide⟩,
    C8_set_algebra (JsSet.empty.addAll [1, 2, 3])
      (JsSet.empty.addAll [2, 3, 4]) (by unfold JsSet.WF; decide)
      (by unfold JsSet.WF; decide)⟩

/-! ### §5: the KEYS handler versus its contract -/

/-- C9: the `KEYS` handler filters the singleton array `[keys]` — the
whole key array, coerced to its comma-joined string inside `test` —
instead of filtering the key names themselves: on the keyspace
`["a", "b"]` with pattern `a*` it replies with a one-element array holding
the entire key list, whereas the specified behaviour (`specKEYS`) returns
exactly the matching names `["a"]`; the two replies differ. -/
theorem C9_keys_filters_wrong_array :
    KEYS ["a".toList, "b".toList] "a*".toList =
      KeysReply.filtered [["a".toList, "b".toList]] ∧
    specKEYS ["a".toList, "b".toList] "a*".toList = ["a".toList] ∧
    KeysReply.filtered [specKEYS ["a".toList, "b".toList] "a*".toList] ≠
      KEYS ["a".toList, "b".toList] "a*".toList := by
  refine ⟨rfl, rfl, ?_⟩
  decide
